import Mathlib

/-!
Verification development for the promise-colorizer analysis core.

The program inspects one JavaScript/TypeScript source unit and reports, for
each function definition and call expression, whether it produces a promise.
We shallowly embed the analyzable core:

* `Node` models the TypeScript syntax tree shape the providers pattern-match
  on (`ts.isFunctionDeclaration`, `ts.isCallExpression`, ...).  Every
  identifier-like node carries an abstract `key : Nat` standing for the
  source span `getNodeKey` would compute (`start-end`); on a parsed unit all
  such spans are pairwise distinct, which theorems take as a `Nodup`
  hypothesis where needed.
* `Heuristic.*` embeds `HeuristicSemanticTokenProvider`
  (src/heuristicSemanticTokenProvider.ts).  The hybrid provider
  (`HybridSemanticTokenProvider`, same file) duplicates these methods
  verbatim, so the same definitions serve both.
* `Tsc.*` embeds `TscSemanticTokenProvider` (src/tscSemanticTokenProvider.ts)
  with the TypeScript type checker abstracted as an oracle whose calls may
  fail (`Except Unit`), mirroring the `try`/`catch` structure.
* `Hybrid.*` embeds `HybridSemanticTokenProvider`'s merge pipeline.
* `SemanticP.*` embeds `DocumentSemanticTokensProvider`
  (src/semanticTokenProvider.ts), whose call classifier mutates the
  object-literal registry (the "cache" branch); its registries are threaded
  as explicit state.

Out-of-scope glue (vscode wiring, configuration, logging, the token-builder
encoding) is not modelled; the output of a provider is the list of pushed
identifier keys, in push order.
-/

set_option maxHeartbeats 1000000

namespace PromiseColorizer

/-- An identifier occurrence: `key` abstracts the source span
(`getNodeKey`'s `start-end` string), `text` is the identifier text. -/
structure Ident where
  key : Nat
  text : String
deriving DecidableEq, Repr

/-- The syntax-tree shape consumed by the providers.  Constructors mirror the
`ts.SyntaxKind`s the source discriminates on.  `varDecl`'s name is a `Node`
because a TypeScript `VariableDeclaration` name is a `BindingName`
(identifier or binding pattern); `bindingPattern` carries its own span key
because `HybridSemanticTokenProvider.visitHeuristic` pushes
`node.parent.name` without an identifier check. -/
inductive Node where
  | ident (i : Ident)
  | strLit (s : String)
  | numLit (v : Nat)
  | propAccess (obj : Node) (name : Ident)
  | call (callee : Node) (args : List Node)
  | newExpr (callee : Node) (args : List Node)
  | awaitExpr (e : Node)
  | assign (lhs rhs : Node)
  | returnStmt (e : Option Node)
  | exprStmt (e : Node)
  | block (stmts : List Node)
  | varDecl (name : Node) (init : Option Node)
  | bindingPattern (key : Nat) (elems : List Node)
  | funcDecl (name : Option Ident) (async : Bool) (retTy : Option String) (body : Option Node)
  | funcExpr (async : Bool) (retTy : Option String) (body : Node)
  | arrowFunc (async : Bool) (retTy : Option String) (body : Node)
  | methodDecl (name : Ident) (async : Bool) (retTy : Option String) (body : Option Node)
  | classDecl (name : Option Ident) (members : List Node)
  | objectLit (props : List Node)
  | shorthandProp (name : Ident)
  | propAssign (name : Ident) (init : Node)

/-- `ts.isBlock`. -/
def isBlock : Node → Bool
  | .block _ => true
  | _ => false

/-- `ts.isFunctionDeclaration(n) || ts.isMethodDeclaration(n) ||
ts.isArrowFunction(n) || ts.isFunctionExpression(n)` — the candidate test
used by the collection and emission passes. -/
def isFunctionLike : Node → Bool
  | .funcDecl _ _ _ _ => true
  | .funcExpr _ _ _ => true
  | .arrowFunc _ _ _ => true
  | .methodDecl _ _ _ _ => true
  | _ => false

/-- `node.modifiers?.some(mod => mod.kind === ts.SyntaxKind.AsyncKeyword)`. -/
def isAsyncFn : Node → Bool
  | .funcDecl _ a _ _ => a
  | .funcExpr a _ _ => a
  | .arrowFunc a _ _ => a
  | .methodDecl _ a _ _ => a
  | _ => false

/-- The declared return-type text of a function-like node, when present
(`node.type.getText()`). -/
def retTyOf : Node → Option String
  | .funcDecl _ _ t _ => t
  | .funcExpr _ t _ => t
  | .arrowFunc _ t _ => t
  | .methodDecl _ _ t _ => t
  | _ => none

/-- `returnTypeText.startsWith('Promise<') || returnTypeText === 'Promise'`. -/
def promiseTypeText (s : String) : Bool :=
  s.startsWith "Promise<" || s == "Promise"

/-- Abstraction of `getNodeKey` / `pushToken`: the span key of a node that
can appear in identifier position.  Only identifiers and binding patterns
can occur as the name of a parsed `VariableDeclaration`, so these are the
only keyed shapes. -/
def getNodeKey : Node → Option Nat
  | .ident i => some i.key
  | .bindingPattern k _ => some k
  | _ => none

/-! ## Registries

The four call-scoped registries of the data model.  JS `Map.set` overwrites,
which the association-list `aset` models by shadowing: lookup takes the
first (most recently set) matching entry. -/

abbrev AList (α : Type) := List (String × α)

def alookup {α : Type} (l : AList α) (k : String) : Option α :=
  (l.find? (fun p => p.1 == k)).map (·.2)

def aset {α : Type} (k : String) (v : α) (l : AList α) : AList α :=
  (k, v) :: l

structure Registries where
  fns : List String
  methods : AList (List String)
  inst : AList String
  objs : AList (List String)
deriving DecidableEq, Repr

def Registries.empty : Registries := ⟨[], [], [], []⟩

def methodsHas (R : Registries) (cls m : String) : Bool :=
  match alookup R.methods cls with
  | some ms => ms.contains m
  | none => false

def objsHas (R : Registries) (o m : String) : Bool :=
  match alookup R.objs o with
  | some ms => ms.contains m
  | none => false

/-- `this.promiseReturningFunctions.add(name)`. -/
def addFn (f : String) (R : Registries) : Registries :=
  { R with fns := f :: R.fns }

/-- `if (!methods.has(cls)) methods.set(cls, new Set()); methods.get(cls)!.add(m)`. -/
def addMethod (cls m : String) (R : Registries) : Registries :=
  { R with methods := aset cls (m :: (alookup R.methods cls).getD []) R.methods }

namespace Heuristic

/-- `HeuristicSemanticTokenProvider.isKnownPromiseReturningCall`, applied to
the call's callee (`callExpression.expression`). -/
def isKnownPromiseReturningCall (R : Registries) (callee : Node) : Bool :=
  match callee with
  | .ident f =>
      f.text == "fetch" || R.fns.contains f.text
  | .propAccess (.ident o) m =>
      o.text == "Promise"
        || methodsHas R o.text m.text
        || (match alookup R.inst o.text with
            | some cls => methodsHas R cls m.text
            | none => false)
        || objsHas R o.text m.text
  | _ => false

/-- `HeuristicSemanticTokenProvider.isExpressionReturningPromise`. -/
def isExpressionReturningPromise (R : Registries) (e : Node) : Bool :=
  match e with
  | .newExpr (.ident c) _ => c.text == "Promise"
  | .call callee _ =>
      (match callee with
       | .propAccess (.ident o) _ => o.text == "Promise"
       | _ => false)
        || isKnownPromiseReturningCall R callee
  | .awaitExpr _ => true
  | _ => false

mutual
/-- The inner `visit` closure of `hasPromiseReturnPattern`: searches for a
`return` whose expression qualifies, without descending into nested
function declarations, arrow functions, or function expressions.
(Method declarations are not in the barrier list.) -/
def scanReturns (R : Registries) : Node → Bool
  | .returnStmt (some e) =>
      if isExpressionReturningPromise R e then true else scanReturns R e
  | .returnStmt none => false
  | .funcDecl _ _ _ _ => false
  | .arrowFunc _ _ _ => false
  | .funcExpr _ _ _ => false
  | .ident _ => false
  | .strLit _ => false
  | .numLit _ => false
  | .propAccess o _ => scanReturns R o
  | .call c as => scanReturns R c || scanReturnsL R as
  | .newExpr c as => scanReturns R c || scanReturnsL R as
  | .awaitExpr e => scanReturns R e
  | .assign l r => scanReturns R l || scanReturns R r
  | .exprStmt e => scanReturns R e
  | .block ss => scanReturnsL R ss
  | .varDecl nm i? =>
      scanReturns R nm || (match i? with | some i => scanReturns R i | none => false)
  | .bindingPattern _ es => scanReturnsL R es
  | .methodDecl _ _ _ b? =>
      (match b? with | some b => scanReturns R b | none => false)
  | .classDecl _ ms => scanReturnsL R ms
  | .objectLit ps => scanReturnsL R ps
  | .shorthandProp _ => false
  | .propAssign _ i => scanReturns R i

def scanReturnsL (R : Registries) : List Node → Bool
  | [] => false
  | n :: ns => scanReturns R n || scanReturnsL R ns
end

/-- `HeuristicSemanticTokenProvider.hasPromiseReturnPattern`. -/
def hasPromiseReturnPattern (R : Registries) (n : Node) : Bool :=
  match n with
  | .arrowFunc _ _ b =>
      if isBlock b then scanReturns R b else isExpressionReturningPromise R b
  | .funcDecl _ _ _ (some b) => if isBlock b then scanReturns R b else false
  | .funcExpr _ _ b => if isBlock b then scanReturns R b else false
  | .methodDecl _ _ _ (some b) => if isBlock b then scanReturns R b else false
  | _ => false

/-- `HeuristicSemanticTokenProvider.isFunctionReturningPromise`:
async keyword, then `Promise` return-type text, then body pattern. -/
def isFunctionReturningPromise (R : Registries) (n : Node) : Bool :=
  isAsyncFn n
    || (match retTyOf n with
        | some t => promiseTypeText t
        | none => false)
    || hasPromiseReturnPattern R n

/-- Context threaded through the collection pass in place of the upward
`parent` links of the real tree: `cls` is what `getContainingClassName`
would return (the nearest enclosing *named* class — an unnamed class
expression does not stop the upward walk), and `parentVarName` is
`node.parent.name.text` when the direct parent is a variable declaration
whose name is an identifier. -/
structure CollectCtx where
  cls : Option String
  parentVarName : Option String

/-- `ts.isIdentifier(decl.name) ? decl.name.text : undefined` — the
parent-variable name passed down to the children of a variable
declaration. -/
def varDeclCtxName : Node → Option String
  | .ident v => some v.text
  | _ => none

/-- The registration head of `collectPromiseFunctions`: a function-like
node judged positive by `isFunctionReturningPromise` *against the registry
built so far* is registered under its declaration name, containing class,
or binding variable; a positive function-like with no usable name is
skipped; any other node registers nothing. -/
def registerPromiseFunction (ctx : CollectCtx) (n : Node) (R : Registries) : Registries :=
  match n with
  | .funcDecl nm? a ty b? =>
      if isFunctionReturningPromise R (.funcDecl nm? a ty b?) then
        match nm? with
        | some nm => addFn nm.text R
        | none => R
      else R
  | .methodDecl nm a ty b? =>
      if isFunctionReturningPromise R (.methodDecl nm a ty b?) then
        match ctx.cls with
        | some c => addMethod c nm.text R
        | none => R
      else R
  | .arrowFunc a ty b =>
      if isFunctionReturningPromise R (.arrowFunc a ty b) then
        match ctx.parentVarName with
        | some v => addFn v R
        | none => R
      else R
  | .funcExpr a ty b =>
      if isFunctionReturningPromise R (.funcExpr a ty b) then
        match ctx.parentVarName with
        | some v => addFn v R
        | none => R
      else R
  | _ => R

mutual
/-- `HeuristicSemanticTokenProvider.collectPromiseFunctions`: apply the
registration head at this node (the registry grows during this very
pass), then recurse into the children (`ts.forEachChild`), left to right.
Bare identifier name children are omitted from the recursion: visiting an
identifier triggers nothing in any pass. -/
def collectPromiseFunctions (ctx : CollectCtx) (n : Node) (R : Registries) : Registries :=
  match n with
  | .funcDecl nm? a ty b? =>
      let R1 := registerPromiseFunction ctx (.funcDecl nm? a ty b?) R
      match b? with
      | some b => collectPromiseFunctions ⟨ctx.cls, none⟩ b R1
      | none => R1
  | .methodDecl nm a ty b? =>
      let R1 := registerPromiseFunction ctx (.methodDecl nm a ty b?) R
      match b? with
      | some b => collectPromiseFunctions ⟨ctx.cls, none⟩ b R1
      | none => R1
  | .arrowFunc a ty b =>
      collectPromiseFunctions ⟨ctx.cls, none⟩ b (registerPromiseFunction ctx (.arrowFunc a ty b) R)
  | .funcExpr a ty b =>
      collectPromiseFunctions ⟨ctx.cls, none⟩ b (registerPromiseFunction ctx (.funcExpr a ty b) R)
  | .ident _ => R
  | .strLit _ => R
  | .numLit _ => R
  | .propAccess o _ => collectPromiseFunctions ⟨ctx.cls, none⟩ o R
  | .call c as =>
      collectPromiseFunctionsL ⟨ctx.cls, none⟩ as (collectPromiseFunctions ⟨ctx.cls, none⟩ c R)
  | .newExpr c as =>
      collectPromiseFunctionsL ⟨ctx.cls, none⟩ as (collectPromiseFunctions ⟨ctx.cls, none⟩ c R)
  | .awaitExpr e => collectPromiseFunctions ⟨ctx.cls, none⟩ e R
  | .assign l r =>
      collectPromiseFunctions ⟨ctx.cls, none⟩ r (collectPromiseFunctions ⟨ctx.cls, none⟩ l R)
  | .returnStmt (some e) => collectPromiseFunctions ⟨ctx.cls, none⟩ e R
  | .returnStmt none => R
  | .exprStmt e => collectPromiseFunctions ⟨ctx.cls, none⟩ e R
  | .block ss => collectPromiseFunctionsL ⟨ctx.cls, none⟩ ss R
  | .varDecl nm i? =>
      let ctx' : CollectCtx := ⟨ctx.cls, varDeclCtxName nm⟩
      let R1 := collectPromiseFunctions ctx' nm R
      match i? with
      | some i => collectPromiseFunctions ctx' i R1
      | none => R1
  | .bindingPattern _ es => collectPromiseFunctionsL ⟨ctx.cls, none⟩ es R
  | .classDecl nm? ms =>
      let cls' := match nm? with | some c => some c.text | none => ctx.cls
      collectPromiseFunctionsL ⟨cls', none⟩ ms R
  | .objectLit ps => collectPromiseFunctionsL ⟨ctx.cls, none⟩ ps R
  | .shorthandProp _ => R
  | .propAssign _ i => collectPromiseFunctions ⟨ctx.cls, none⟩ i R

def collectPromiseFunctionsL (ctx : CollectCtx) (ns : List Node) (R : Registries) : Registries :=
  match ns with
  | [] => R
  | n :: rest => collectPromiseFunctionsL ctx rest (collectPromiseFunctions ctx n R)
end

/-- The binding head of `collectInstanceVariables`: a variable declaration
`v = new C(...)` with identifier name and identifier constructor sets
`v → C` in the InstanceMap (a later set overwrites an earlier one); any
other node binds nothing. -/
def bindInstanceVariable (n : Node) (R : Registries) : Registries :=
  match n with
  | .varDecl (.ident v) (some (.newExpr (.ident c) _)) =>
      { R with inst := aset v.text c.text R.inst }
  | _ => R

mutual
/-- `HeuristicSemanticTokenProvider.collectInstanceVariables`: apply the
binding head at this node, then recurse into the children
(`ts.forEachChild`). -/
def collectInstanceVariables (n : Node) (R : Registries) : Registries :=
  match n with
  | .ident _ => R
  | .strLit _ => R
  | .numLit _ => R
  | .propAccess o _ => collectInstanceVariables o R
  | .call c as => collectInstanceVariablesL as (collectInstanceVariables c R)
  | .newExpr c as => collectInstanceVariablesL as (collectInstanceVariables c R)
  | .awaitExpr e => collectInstanceVariables e R
  | .assign l r => collectInstanceVariables r (collectInstanceVariables l R)
  | .returnStmt (some e) => collectInstanceVariables e R
  | .returnStmt none => R
  | .exprStmt e => collectInstanceVariables e R
  | .block ss => collectInstanceVariablesL ss R
  | .varDecl nm i? =>
      let R0 := bindInstanceVariable (.varDecl nm i?) R
      let R1 := collectInstanceVariables nm R0
      match i? with
      | some i => collectInstanceVariables i R1
      | none => R1
  | .bindingPattern _ es => collectInstanceVariablesL es R
  | .funcDecl _ _ _ (some b) => collectInstanceVariables b R
  | .funcDecl _ _ _ none => R
  | .funcExpr _ _ b => collectInstanceVariables b R
  | .arrowFunc _ _ b => collectInstanceVariables b R
  | .methodDecl _ _ _ (some b) => collectInstanceVariables b R
  | .methodDecl _ _ _ none => R
  | .classDecl _ ms => collectInstanceVariablesL ms R
  | .objectLit ps => collectInstanceVariablesL ps R
  | .shorthandProp _ => R
  | .propAssign _ i => collectInstanceVariables i R

def collectInstanceVariablesL (ns : List Node) (R : Registries) : Registries :=
  match ns with
  | [] => R
  | n :: rest => collectInstanceVariablesL rest (collectInstanceVariables n R)
end

/-- The property loop of `collectObjectLiterals`: the subset of an object
literal's properties that are shorthand references to registered promise
functions, renamed references to one, or inline methods judged positive. -/
def promiseMethodsOfProps (R : Registries) : List Node → List String
  | [] => []
  | p :: ps =>
      (match p with
       | .shorthandProp nm =>
           if R.fns.contains nm.text then [nm.text] else []
       | .propAssign nm (.ident f) =>
           if R.fns.contains f.text then [nm.text] else []
       | .methodDecl nm a ty b? =>
           if isFunctionReturningPromise R (.methodDecl nm a ty b?) then [nm.text] else []
       | _ => []) ++ promiseMethodsOfProps R ps

/-- The binding head of `collectObjectLiterals` (heuristic provider):
`v = { ... }` with identifier name binds `v` to the set of its
promise-returning property names, when that set is nonempty; any other
node binds nothing. -/
def bindObjectLiteral (n : Node) (R : Registries) : Registries :=
  match n with
  | .varDecl (.ident v) (some (.objectLit ps)) =>
      let pms := promiseMethodsOfProps R ps
      if pms.isEmpty then R else { R with objs := aset v.text pms R.objs }
  | _ => R

mutual
/-- `HeuristicSemanticTokenProvider.collectObjectLiterals`: apply the
binding head at this node, then recurse into the children
(`ts.forEachChild`). -/
def collectObjectLiterals (n : Node) (R : Registries) : Registries :=
  match n with
  | .ident _ => R
  | .strLit _ => R
  | .numLit _ => R
  | .propAccess o _ => collectObjectLiterals o R
  | .call c as => collectObjectLiteralsL as (collectObjectLiterals c R)
  | .newExpr c as => collectObjectLiteralsL as (collectObjectLiterals c R)
  | .awaitExpr e => collectObjectLiterals e R
  | .assign l r => collectObjectLiterals r (collectObjectLiterals l R)
  | .returnStmt (some e) => collectObjectLiterals e R
  | .returnStmt none => R
  | .exprStmt e => collectObjectLiterals e R
  | .block ss => collectObjectLiteralsL ss R
  | .varDecl nm i? =>
      let R0 := bindObjectLiteral (.varDecl nm i?) R
      let R1 := collectObjectLiterals nm R0
      match i? with
      | some i => collectObjectLiterals i R1
      | none => R1
  | .bindingPattern _ es => collectObjectLiteralsL es R
  | .funcDecl _ _ _ (some b) => collectObjectLiterals b R
  | .funcDecl _ _ _ none => R
  | .funcExpr _ _ b => collectObjectLiterals b R
  | .arrowFunc _ _ b => collectObjectLiterals b R
  | .methodDecl _ _ _ (some b) => collectObjectLiterals b R
  | .methodDecl _ _ _ none => R
  | .classDecl _ ms => collectObjectLiteralsL ms R
  | .objectLit ps => collectObjectLiteralsL ps R
  | .shorthandProp _ => R
  | .propAssign _ i => collectObjectLiterals i R

def collectObjectLiteralsL (ns : List Node) (R : Registries) : Registries :=
  match ns with
  | [] => R
  | n :: rest => collectObjectLiteralsL rest (collectObjectLiterals n R)
end

/-- The identifier sub-node pushed for a positive call: the bare callee
identifier or the accessed property name (`visit`, "Handle function
calls"). -/
def callCandidateKey : Node → List Nat
  | .ident i => [i.key]
  | .propAccess _ m => [m.key]
  | _ => []

mutual
/-- `HeuristicSemanticTokenProvider.visit` (emission pass); identical to
the hybrid's `visitHeuristic` up to the `heuristicTokens` bookkeeping,
whose content is exactly the returned key list.  Returns the pushed span
keys in push order.  `pv` is `some name` when the node's direct parent is
a variable declaration with that name node. -/
def visit (R : Registries) (pv : Option Node) (n : Node) : List Nat :=
  match n with
  | .funcDecl nm? a ty b? =>
      (if isFunctionReturningPromise R (.funcDecl nm? a ty b?) then
         match nm? with
         | some nm => [nm.key]
         | none => []
       else [])
        ++ (match b? with | some b => visit R none b | none => [])
  | .methodDecl nm a ty b? =>
      (if isFunctionReturningPromise R (.methodDecl nm a ty b?) then [nm.key] else [])
        ++ (match b? with | some b => visit R none b | none => [])
  | .arrowFunc a ty b =>
      (if isFunctionReturningPromise R (.arrowFunc a ty b) then
         match pv with
         | some nm => (getNodeKey nm).toList
         | none => []
       else [])
        ++ visit R none b
  | .funcExpr a ty b =>
      (if isFunctionReturningPromise R (.funcExpr a ty b) then
         match pv with
         | some nm => (getNodeKey nm).toList
         | none => []
       else [])
        ++ visit R none b
  | .call c as =>
      (if isKnownPromiseReturningCall R c then callCandidateKey c else [])
        ++ visit R none c ++ visitL R none as
  | .ident _ => []
  | .strLit _ => []
  | .numLit _ => []
  | .propAccess o _ => visit R none o
  | .newExpr c as => visit R none c ++ visitL R none as
  | .awaitExpr e => visit R none e
  | .assign l r => visit R none l ++ visit R none r
  | .returnStmt (some e) => visit R none e
  | .returnStmt none => []
  | .exprStmt e => visit R none e
  | .block ss => visitL R none ss
  | .varDecl nm i? =>
      visit R (some nm) nm ++ (match i? with | some i => visit R (some nm) i | none => [])
  | .bindingPattern _ es => visitL R none es
  | .classDecl _ ms => visitL R none ms
  | .objectLit ps => visitL R none ps
  | .shorthandProp _ => []
  | .propAssign _ i => visit R none i

def visitL (R : Registries) (pv : Option Node) (ns : List Node) : List Nat :=
  match ns with
  | [] => []
  | n :: rest => visit R pv n ++ visitL R pv rest
end

/-- The registry-building prefix of `provideDocumentSemanticTokens`:
registries cleared at call start, then the three collectors in order. -/
def buildRegistries (t : Node) : Registries :=
  collectObjectLiterals t
    (collectInstanceVariables t
      (collectPromiseFunctions ⟨none, none⟩ t Registries.empty))

/-- `HeuristicSemanticTokenProvider.provideDocumentSemanticTokens`:
the pushed span keys of the heuristic-only mode. -/
def provide (t : Node) : List Nat :=
  visit (buildRegistries t) none t

end Heuristic

namespace Tsc

/-- The part of a `ts.Type`'s `then` property that `isPromiseType` reads:
whether the property has a `valueDeclaration`, and the number of call
signatures of its type.  Fetching that type
(`typeChecker.getTypeOfSymbolAtLocation`) is a checker call and may fail,
hence `Except`. -/
structure ThenProp where
  hasValueDecl : Bool
  sigCount : Except Unit Nat

/-- Model of a `ts.Type` as consumed by `isPromiseType`
(tscSemanticTokenProvider.ts; the hybrid provider's copy is identical):
a union of members, or an atom with an optional symbol name and an
optional `then` property. -/
inductive Ty where
  | union (members : List Ty)
  | atom (symName : Option String) (thenProp : Option ThenProp)

mutual
/-- `TscSemanticTokenProvider.isPromiseType`: union members are tested
with short-circuiting `some`; otherwise the symbol name is compared to
`Promise`; otherwise a `then` property with a value declaration is
duck-typed by asking for call signatures.  Failures of nested checker
calls propagate to the caller's `catch`. -/
def isPromiseType : Ty → Except Unit Bool
  | .union ms => isPromiseTypeAny ms
  | .atom symName thenP =>
      if symName == some "Promise" then pure true
      else
        match thenP with
        | some tp =>
            if tp.hasValueDecl then do
              let n ← tp.sigCount
              pure (decide (0 < n))
            else pure false
        | none => pure false

def isPromiseTypeAny : List Ty → Except Unit Bool
  | [] => pure false
  | t :: ts => do
      let b ← isPromiseType t
      if b then pure true else isPromiseTypeAny ts
end

/-- The TypeScript type checker, abstracted at the three call sites the
semantic tier uses.  Signatures are abstract handles (`Nat`); every call
can fail, modelling thrown checker exceptions. -/
structure Checker where
  sigOfDecl : Node → Except Unit (Option Nat)
  resolvedSig : Node → Except Unit (Option Nat)
  retTyOfSig : Nat → Except Unit Ty

/-- The `try` block of `TscSemanticTokenProvider.isFunctionReturningPromise`:
`getSignatureFromDeclaration`, then `getReturnTypeOfSignature`, then
`isPromiseType`.  `ok none` means the signature was `undefined` (the code
falls through to `return false`); `error` models a thrown exception. -/
def fnInfer (C : Checker) (n : Node) : Except Unit (Option Bool) := do
  let s? ← C.sigOfDecl n
  match s? with
  | none => pure none
  | some s => do
      let t ← C.retTyOfSig s
      let b ← isPromiseType t
      pure (some b)

/-- `TscSemanticTokenProvider.isFunctionReturningPromise`: the `async`
keyword short-circuits; otherwise the inference runs under `try`, with
any failure caught and treated as negative for this node. -/
def isFunctionReturningPromise (C : Checker) (n : Node) : Bool :=
  if isAsyncFn n then true
  else
    match fnInfer C n with
    | .ok (some b) => b
    | .ok none => false
    | .error _ => false

/-- The `try` block of `TscSemanticTokenProvider.isPromiseReturningCall`:
`getResolvedSignature`, then `getReturnTypeOfSignature`, then
`isPromiseType`. -/
def callInfer (C : Checker) (n : Node) : Except Unit (Option Bool) := do
  let s? ← C.resolvedSig n
  match s? with
  | none => pure none
  | some s => do
      let t ← C.retTyOfSig s
      let b ← isPromiseType t
      pure (some b)

/-- `TscSemanticTokenProvider.isPromiseReturningCall`: inference under
`try`, failure caught and treated as negative for this node. -/
def isPromiseReturningCall (C : Checker) (n : Node) : Bool :=
  match callInfer C n with
  | .ok (some b) => b
  | .ok none => false
  | .error _ => false

mutual
/-- `TscSemanticTokenProvider.visit`: one depth-first walk; at each
function-definition or call node judged positive the identifier sub-node's
span is pushed.  `pv` plays the role of `node.parent` for the
variable-declaration-name rule. -/
def visit (C : Checker) (pv : Option Node) (n : Node) : List Nat :=
  match n with
  | .funcDecl nm? a ty b? =>
      (if isFunctionReturningPromise C (.funcDecl nm? a ty b?) then
         match nm? with
         | some nm => [nm.key]
         | none => []
       else [])
        ++ (match b? with | some b => visit C none b | none => [])
  | .methodDecl nm a ty b? =>
      (if isFunctionReturningPromise C (.methodDecl nm a ty b?) then [nm.key] else [])
        ++ (match b? with | some b => visit C none b | none => [])
  | .arrowFunc a ty b =>
      (if isFunctionReturningPromise C (.arrowFunc a ty b) then
         match pv with
         | some nm => (getNodeKey nm).toList
         | none => []
       else [])
        ++ visit C none b
  | .funcExpr a ty b =>
      (if isFunctionReturningPromise C (.funcExpr a ty b) then
         match pv with
         | some nm => (getNodeKey nm).toList
         | none => []
       else [])
        ++ visit C none b
  | .call c as =>
      (if isPromiseReturningCall C (.call c as) then Heuristic.callCandidateKey c else [])
        ++ visit C none c ++ visitL C none as
  | .ident _ => []
  | .strLit _ => []
  | .numLit _ => []
  | .propAccess o _ => visit C none o
  | .newExpr c as => visit C none c ++ visitL C none as
  | .awaitExpr e => visit C none e
  | .assign l r => visit C none l ++ visit C none r
  | .returnStmt (some e) => visit C none e
  | .returnStmt none => []
  | .exprStmt e => visit C none e
  | .block ss => visitL C none ss
  | .varDecl nm i? =>
      visit C (some nm) nm ++ (match i? with | some i => visit C (some nm) i | none => [])
  | .bindingPattern _ es => visitL C none es
  | .classDecl _ ms => visitL C none ms
  | .objectLit ps => visitL C none ps
  | .shorthandProp _ => []
  | .propAssign _ i => visit C none i

def visitL (C : Checker) (pv : Option Node) (ns : List Node) : List Nat :=
  match ns with
  | [] => []
  | n :: rest => visit C pv n ++ visitL C pv rest
end

/-- `TscSemanticTokenProvider.provideDocumentSemanticTokens`: if the
program/checker cannot be created the result is the empty token set,
otherwise one semantic walk. -/
def provide (C? : Option Checker) (t : Node) : List Nat :=
  match C? with
  | none => []
  | some C => visit C none t

end Tsc

namespace Hybrid

mutual
/-- `HybridSemanticTokenProvider.visitTypeScript`: re-walk of the tree in
which a candidate identifier is considered only when its span key is not
in the heuristic phase's claimed set (`heuristicTokens`), and pushed when
the TypeScript-backed classifier (identical to the tsc provider's) judges
the node positive.  Nothing is added to the claimed set here. -/
def visitTypeScript (C : Tsc.Checker) (claimed : List Nat) (pv : Option Node)
    (n : Node) : List Nat :=
  match n with
  | .funcDecl nm? a ty b? =>
      (match nm? with
       | some nm =>
           if !claimed.contains nm.key
               && Tsc.isFunctionReturningPromise C (.funcDecl nm? a ty b?) then
             [nm.key]
           else []
       | none => [])
        ++ (match b? with | some b => visitTypeScript C claimed none b | none => [])
  | .methodDecl nm a ty b? =>
      (if !claimed.contains nm.key
          && Tsc.isFunctionReturningPromise C (.methodDecl nm a ty b?) then
         [nm.key]
       else [])
        ++ (match b? with | some b => visitTypeScript C claimed none b | none => [])
  | .arrowFunc a ty b =>
      (match pv with
       | some nm =>
           match getNodeKey nm with
           | some k =>
               if !claimed.contains k
                   && Tsc.isFunctionReturningPromise C (.arrowFunc a ty b) then
                 [k]
               else []
           | none => []
       | none => [])
        ++ visitTypeScript C claimed none b
  | .funcExpr a ty b =>
      (match pv with
       | some nm =>
           match getNodeKey nm with
           | some k =>
               if !claimed.contains k
                   && Tsc.isFunctionReturningPromise C (.funcExpr a ty b) then
                 [k]
               else []
           | none => []
       | none => [])
        ++ visitTypeScript C claimed none b
  | .call c as =>
      (match c with
       | .ident i =>
           if !claimed.contains i.key
               && Tsc.isPromiseReturningCall C (.call (.ident i) as) then
             [i.key]
           else []
       | .propAccess o m =>
           if !claimed.contains m.key
               && Tsc.isPromiseReturningCall C (.call (.propAccess o m) as) then
             [m.key]
           else []
       | _ => [])
        ++ visitTypeScript C claimed none c ++ visitTypeScriptL C claimed none as
  | .ident _ => []
  | .strLit _ => []
  | .numLit _ => []
  | .propAccess o _ => visitTypeScript C claimed none o
  | .newExpr c as =>
      visitTypeScript C claimed none c ++ visitTypeScriptL C claimed none as
  | .awaitExpr e => visitTypeScript C claimed none e
  | .assign l r => visitTypeScript C claimed none l ++ visitTypeScript C claimed none r
  | .returnStmt (some e) => visitTypeScript C claimed none e
  | .returnStmt none => []
  | .exprStmt e => visitTypeScript C claimed none e
  | .block ss => visitTypeScriptL C claimed none ss
  | .varDecl nm i? =>
      visitTypeScript C claimed (some nm) nm
        ++ (match i? with | some i => visitTypeScript C claimed (some nm) i | none => [])
  | .bindingPattern _ es => visitTypeScriptL C claimed none es
  | .classDecl _ ms => visitTypeScriptL C claimed none ms
  | .objectLit ps => visitTypeScriptL C claimed none ps
  | .shorthandProp _ => []
  | .propAssign _ i => visitTypeScript C claimed none i

def visitTypeScriptL (C : Tsc.Checker) (claimed : List Nat) (pv : Option Node)
    (ns : List Node) : List Nat :=
  match ns with
  | [] => []
  | n :: rest => visitTypeScript C claimed pv n ++ visitTypeScriptL C claimed pv rest
end

/-- `HybridSemanticTokenProvider.provideDocumentSemanticTokens`:
phase 1 collects the registries and runs the heuristic walk (its pushed
keys are exactly the claimed set `heuristicTokens`); phase 2 attempts to
construct the type-checking context (`createTypeScriptProgram`), and on
success (`some C`) runs the TypeScript walk over the same unit — the
program's re-parse of the identical text yields identical spans — on
failure (`none`) the heuristic results are returned unchanged. -/
def provide (C? : Option Tsc.Checker) (t : Node) : List Nat :=
  let R := Heuristic.buildRegistries t
  let ks := Heuristic.visit R none t
  match C? with
  | none => ks
  | some C => ks ++ visitTypeScript C ks none t

end Hybrid

namespace SemanticP

/-- The type-checker oracle of `DocumentSemanticTokensProvider`
(semanticTokenProvider.ts), abstracted at its call-site clusters:

* `fnTypeTest` — step 4 of `isFunctionReturningPromise` (both the
  declaration-signature and the call-signature methods, whose internal
  `try`/`catch` absorbs every failure into `false`);
* `propMethodTest` — the method-return-type probe inside
  `isPromiseReturningCall` (`getTypeAtLocation` on the receiver,
  `getPropertyOfType`, signature loop); a thrown exception is the
  `error` case ("Fall through to next check");
* `callTypeTest` — `getTypeAtLocation(node)` plus `isPromiseType` at the
  end of `isPromiseReturningCall`;
* `asyncMethodsOf` — `getAsyncMethodsFromReturnType`, which absorbs its
  errors and returns a (possibly empty) set of method names. -/
structure Checker where
  fnTypeTest : Node → Bool
  propMethodTest : String → String → Except Unit Bool
  callTypeTest : Node → Except Unit Bool
  asyncMethodsOf : Node → List String

/-- `DocumentSemanticTokensProvider.isFunctionReturningPromise`: rules 1-3
are the heuristic function-level rule verbatim; rule 4 consults the type
checker when the program was created. -/
def isFunctionReturningPromise (C? : Option Checker) (R : Registries) (n : Node) : Bool :=
  Heuristic.isFunctionReturningPromise R n
    || (match C? with
        | some c => c.fnTypeTest n
        | none => false)

/-- The registration head of this provider's `collectPromiseFunctions`
(same shape as the heuristic one, judged by the checker-backed rule). -/
def registerPromiseFunction (C? : Option Checker) (ctx : Heuristic.CollectCtx) (n : Node)
    (R : Registries) : Registries :=
  match n with
  | .funcDecl nm? a ty b? =>
      if isFunctionReturningPromise C? R (.funcDecl nm? a ty b?) then
        match nm? with
        | some nm => addFn nm.text R
        | none => R
      else R
  | .methodDecl nm a ty b? =>
      if isFunctionReturningPromise C? R (.methodDecl nm a ty b?) then
        match ctx.cls with
        | some c => addMethod c nm.text R
        | none => R
      else R
  | .arrowFunc a ty b =>
      if isFunctionReturningPromise C? R (.arrowFunc a ty b) then
        match ctx.parentVarName with
        | some v => addFn v R
        | none => R
      else R
  | .funcExpr a ty b =>
      if isFunctionReturningPromise C? R (.funcExpr a ty b) then
        match ctx.parentVarName with
        | some v => addFn v R
        | none => R
      else R
  | _ => R

mutual
/-- `DocumentSemanticTokensProvider.collectPromiseFunctions` — identical
traversal to the heuristic provider's, with the checker-backed
registration head. -/
def collectPromiseFunctions (C? : Option Checker) (ctx : Heuristic.CollectCtx) (n : Node)
    (R : Registries) : Registries :=
  match n with
  | .funcDecl nm? a ty b? =>
      let R1 := registerPromiseFunction C? ctx (.funcDecl nm? a ty b?) R
      match b? with
      | some b => collectPromiseFunctions C? ⟨ctx.cls, none⟩ b R1
      | none => R1
  | .methodDecl nm a ty b? =>
      let R1 := registerPromiseFunction C? ctx (.methodDecl nm a ty b?) R
      match b? with
      | some b => collectPromiseFunctions C? ⟨ctx.cls, none⟩ b R1
      | none => R1
  | .arrowFunc a ty b =>
      collectPromiseFunctions C? ⟨ctx.cls, none⟩ b
        (registerPromiseFunction C? ctx (.arrowFunc a ty b) R)
  | .funcExpr a ty b =>
      collectPromiseFunctions C? ⟨ctx.cls, none⟩ b
        (registerPromiseFunction C? ctx (.funcExpr a ty b) R)
  | .ident _ => R
  | .strLit _ => R
  | .numLit _ => R
  | .propAccess o _ => collectPromiseFunctions C? ⟨ctx.cls, none⟩ o R
  | .call c as =>
      collectPromiseFunctionsL C? ⟨ctx.cls, none⟩ as
        (collectPromiseFunctions C? ⟨ctx.cls, none⟩ c R)
  | .newExpr c as =>
      collectPromiseFunctionsL C? ⟨ctx.cls, none⟩ as
        (collectPromiseFunctions C? ⟨ctx.cls, none⟩ c R)
  | .awaitExpr e => collectPromiseFunctions C? ⟨ctx.cls, none⟩ e R
  | .assign l r =>
      collectPromiseFunctions C? ⟨ctx.cls, none⟩ r
        (collectPromiseFunctions C? ⟨ctx.cls, none⟩ l R)
  | .returnStmt (some e) => collectPromiseFunctions C? ⟨ctx.cls, none⟩ e R
  | .returnStmt none => R
  | .exprStmt e => collectPromiseFunctions C? ⟨ctx.cls, none⟩ e R
  | .block ss => collectPromiseFunctionsL C? ⟨ctx.cls, none⟩ ss R
  | .varDecl nm i? =>
      let ctx' : Heuristic.CollectCtx := ⟨ctx.cls, Heuristic.varDeclCtxName nm⟩
      let R1 := collectPromiseFunctions C? ctx' nm R
      match i? with
      | some i => collectPromiseFunctions C? ctx' i R1
      | none => R1
  | .bindingPattern _ es => collectPromiseFunctionsL C? ⟨ctx.cls, none⟩ es R
  | .classDecl nm? ms =>
      let cls' := match nm? with | some c => some c.text | none => ctx.cls
      collectPromiseFunctionsL C? ⟨cls', none⟩ ms R
  | .objectLit ps => collectPromiseFunctionsL C? ⟨ctx.cls, none⟩ ps R
  | .shorthandProp _ => R
  | .propAssign _ i => collectPromiseFunctions C? ⟨ctx.cls, none⟩ i R

def collectPromiseFunctionsL (C? : Option Checker) (ctx : Heuristic.CollectCtx)
    (ns : List Node) (R : Registries) : Registries :=
  match ns with
  | [] => R
  | n :: rest => collectPromiseFunctionsL C? ctx rest (collectPromiseFunctions C? ctx n R)
end

/-- The property loop of this provider's `collectObjectLiterals` (handles
shorthand and renamed references jointly, plus inline methods judged by
the checker-backed rule). -/
def promiseMethodsOfProps (C? : Option Checker) (R : Registries) : List Node → List String
  | [] => []
  | p :: ps =>
      (match p with
       | .shorthandProp nm =>
           if R.fns.contains nm.text then [nm.text] else []
       | .propAssign nm (.ident f) =>
           if R.fns.contains f.text then [nm.text] else []
       | .methodDecl nm a ty b? =>
           if isFunctionReturningPromise C? R (.methodDecl nm a ty b?) then [nm.text] else []
       | _ => []) ++ promiseMethodsOfProps C? R ps

/-- `getAsyncMethodsFromReturnType`, including its
`if (!this.typeChecker) return empty` guard. -/
def asyncMethodsFromReturnType (C? : Option Checker) (n : Node) : List String :=
  match C? with
  | some c => c.asyncMethodsOf n
  | none => []

/-- The binding heads of this provider's `collectObjectLiterals`: the
object-literal branch of the heuristic provider (with the checker-backed
property judgment), plus the branch for `const v = someCall()` that mines
the call's inferred return type for promise-returning method names. -/
def bindObjectLiteral (C? : Option Checker) (n : Node) (R : Registries) : Registries :=
  match n with
  | .varDecl (.ident v) (some (.objectLit ps)) =>
      let pms := promiseMethodsOfProps C? R ps
      if pms.isEmpty then R else { R with objs := aset v.text pms R.objs }
  | .varDecl (.ident v) (some (.call callee args)) =>
      let ams :=
        match callee with
        | .propAccess (.ident _) _ => asyncMethodsFromReturnType C? (.call callee args)
        | .propAccess _ _ => []
        | _ => asyncMethodsFromReturnType C? (.call callee args)
      if ams.isEmpty then R else { R with objs := aset v.text ams R.objs }
  | _ => R

mutual
/-- `DocumentSemanticTokensProvider.collectObjectLiterals`: apply the
binding heads at this node, then recurse into the children
(`ts.forEachChild`). -/
def collectObjectLiterals (C? : Option Checker) (n : Node) (R : Registries) : Registries :=
  match n with
  | .ident _ => R
  | .strLit _ => R
  | .numLit _ => R
  | .propAccess o _ => collectObjectLiterals C? o R
  | .call c as => collectObjectLiteralsL C? as (collectObjectLiterals C? c R)
  | .newExpr c as => collectObjectLiteralsL C? as (collectObjectLiterals C? c R)
  | .awaitExpr e => collectObjectLiterals C? e R
  | .assign l r => collectObjectLiterals C? r (collectObjectLiterals C? l R)
  | .returnStmt (some e) => collectObjectLiterals C? e R
  | .returnStmt none => R
  | .exprStmt e => collectObjectLiterals C? e R
  | .block ss => collectObjectLiteralsL C? ss R
  | .varDecl nm i? =>
      let R0 := bindObjectLiteral C? (.varDecl nm i?) R
      let R1 := collectObjectLiterals C? nm R0
      match i? with
      | some i => collectObjectLiterals C? i R1
      | none => R1
  | .bindingPattern _ es => collectObjectLiteralsL C? es R
  | .funcDecl _ _ _ (some b) => collectObjectLiterals C? b R
  | .funcDecl _ _ _ none => R
  | .funcExpr _ _ b => collectObjectLiterals C? b R
  | .arrowFunc _ _ b => collectObjectLiterals C? b R
  | .methodDecl _ _ _ (some b) => collectObjectLiterals C? b R
  | .methodDecl _ _ _ none => R
  | .classDecl _ ms => collectObjectLiteralsL C? ms R
  | .objectLit ps => collectObjectLiteralsL C? ps R
  | .shorthandProp _ => R
  | .propAssign _ i => collectObjectLiterals C? i R

def collectObjectLiteralsL (C? : Option Checker) (ns : List Node) (R : Registries) :
    Registries :=
  match ns with
  | [] => R
  | n :: rest => collectObjectLiteralsL C? rest (collectObjectLiterals C? n R)
end

/-- `DocumentSemanticTokensProvider.isPromiseReturningCall`.  This is the
one classification step that *writes* to a registry: when the receiver has
no ObjectLiteralMap entry and the checker's method probe succeeds, the
discovered method name is cached in `objectToPromiseMethods` ("Cache this
for future use").  Returns the verdict together with the
possibly-extended registries. -/
def isPromiseReturningCall (C? : Option Checker) (R : Registries) (n : Node) :
    Bool × Registries :=
  let callTypeTail : Bool × Registries :=
    match C? with
    | some c =>
        match c.callTypeTest n with
        | .ok true => (true, R)
        | _ => (false, R)
    | none => (false, R)
  match n with
  | .call callee _ =>
      (match callee with
       | .ident f =>
           if f.text == "fetch" || R.fns.contains f.text then (true, R)
           else callTypeTail
       | .propAccess (.ident o) m =>
           let objMethods := alookup R.objs o.text
           if methodsHas R o.text m.text then (true, R)
           else if (match alookup R.inst o.text with
                    | some cls => methodsHas R cls m.text
                    | none => false) then (true, R)
           else if (match objMethods with
                    | some ms => ms.contains m.text
                    | none => false) then (true, R)
           else if o.text == "Promise" then (true, R)
           else
             match C?, objMethods with
             | some c, none =>
                 (match c.propMethodTest o.text m.text with
                  | .ok true => (true, { R with objs := aset o.text [m.text] R.objs })
                  | _ => callTypeTail)
             | _, _ => callTypeTail
       | _ => callTypeTail)
  | _ => (false, R)

mutual
/-- `DocumentSemanticTokensProvider.visit`: the emission pass, with the
registries threaded because `isPromiseReturningCall` can extend the
object-literal registry mid-walk. -/
def visit (C? : Option Checker) (pv : Option Node) (n : Node) (R : Registries) :
    List Nat × Registries :=
  match n with
  | .funcDecl nm? a ty b? =>
      let defPush :=
        if isFunctionReturningPromise C? R (.funcDecl nm? a ty b?) then
          match nm? with
          | some nm => [nm.key]
          | none => []
        else []
      let res := match b? with
        | some b => visit C? none b R
        | none => ([], R)
      (defPush ++ res.1, res.2)
  | .methodDecl nm a ty b? =>
      let defPush :=
        if isFunctionReturningPromise C? R (.methodDecl nm a ty b?) then [nm.key] else []
      let res := match b? with
        | some b => visit C? none b R
        | none => ([], R)
      (defPush ++ res.1, res.2)
  | .arrowFunc a ty b =>
      let defPush :=
        if isFunctionReturningPromise C? R (.arrowFunc a ty b) then
          match pv with
          | some nm => (getNodeKey nm).toList
          | none => []
        else []
      let res := visit C? none b R
      (defPush ++ res.1, res.2)
  | .funcExpr a ty b =>
      let defPush :=
        if isFunctionReturningPromise C? R (.funcExpr a ty b) then
          match pv with
          | some nm => (getNodeKey nm).toList
          | none => []
        else []
      let res := visit C? none b R
      (defPush ++ res.1, res.2)
  | .call c as =>
      let ver := isPromiseReturningCall C? R (.call c as)
      let callPush := if ver.1 then Heuristic.callCandidateKey c else []
      let res1 := visit C? none c ver.2
      let res2 := visitL C? none as res1.2
      (callPush ++ res1.1 ++ res2.1, res2.2)
  | .ident _ => ([], R)
  | .strLit _ => ([], R)
  | .numLit _ => ([], R)
  | .propAccess o _ => visit C? none o R
  | .newExpr c as =>
      let res1 := visit C? none c R
      let res2 := visitL C? none as res1.2
      (res1.1 ++ res2.1, res2.2)
  | .awaitExpr e => visit C? none e R
  | .assign l r =>
      let res1 := visit C? none l R
      let res2 := visit C? none r res1.2
      (res1.1 ++ res2.1, res2.2)
  | .returnStmt (some e) => visit C? none e R
  | .returnStmt none => ([], R)
  | .exprStmt e => visit C? none e R
  | .block ss => visitL C? none ss R
  | .varDecl nm i? =>
      let res1 := visit C? (some nm) nm R
      let res2 := match i? with
        | some i => visit C? (some nm) i res1.2
        | none => ([], res1.2)
      (res1.1 ++ res2.1, res2.2)
  | .bindingPattern _ es => visitL C? none es R
  | .classDecl _ ms => visitL C? none ms R
  | .objectLit ps => visitL C? none ps R
  | .shorthandProp _ => ([], R)
  | .propAssign _ i => visit C? none i R

def visitL (C? : Option Checker) (pv : Option Node) (ns : List Node) (R : Registries) :
    List Nat × Registries :=
  match ns with
  | [] => ([], R)
  | n :: rest =>
      let res1 := visit C? pv n R
      let res2 := visitL C? pv rest res1.2
      (res1.1 ++ res2.1, res2.2)
end

/-- The collection phase of
`DocumentSemanticTokensProvider.provideDocumentSemanticTokens`
(the program is created first, then the three collectors run in order). -/
def buildRegistries (C? : Option Checker) (t : Node) : Registries :=
  collectObjectLiterals C? t
    (Heuristic.collectInstanceVariables t
      (collectPromiseFunctions C? ⟨none, none⟩ t Registries.empty))

/-- `DocumentSemanticTokensProvider.provideDocumentSemanticTokens`:
collection phase, then the emission pass; result spans together with the
registry state at the end of the call. -/
def provide (C? : Option Checker) (t : Node) : List Nat × Registries :=
  visit C? none t (buildRegistries C? t)

end SemanticP

/-! ## General list lemmas -/

open List

theorem subperm_append_both {α : Type} {l₁ l₂ r₁ r₂ : List α}
    (h₁ : l₁ <+~ l₂) (h₂ : r₁ <+~ r₂) : l₁ ++ r₁ <+~ l₂ ++ r₂ := by
  obtain ⟨a, pa, sa⟩ := h₁
  obtain ⟨b, pb, sb⟩ := h₂
  exact ⟨a ++ b, pa.append pb, sa.append sb⟩

theorem subperm_of_perm_right {α : Type} {l m m' : List α}
    (h : l <+~ m) (p : m ~ m') : l <+~ m' :=
  h.trans p.subperm

theorem nodup_of_subperm {α : Type} {l m : List α}
    (h : l <+~ m) (hm : m.Nodup) : l.Nodup := by
  obtain ⟨a, pa, sa⟩ := h
  exact pa.nodup_iff.mp (sa.nodup hm)

/-! ## Forward references through the function registry (C3) -/

mutual
/-- The callee-identifier keys of every call expression whose callee is the
bare identifier `name`, listed in emission-pass visit order. -/
def bareCallKeys (name : String) : Node → List Nat
  | .call c as =>
      (match c with
       | .ident i => if i.text == name then [i.key] else []
       | _ => []) ++ bareCallKeys name c ++ bareCallKeysL name as
  | .ident _ => []
  | .strLit _ => []
  | .numLit _ => []
  | .propAccess o _ => bareCallKeys name o
  | .newExpr c as => bareCallKeys name c ++ bareCallKeysL name as
  | .awaitExpr e => bareCallKeys name e
  | .assign l r => bareCallKeys name l ++ bareCallKeys name r
  | .returnStmt (some e) => bareCallKeys name e
  | .returnStmt none => []
  | .exprStmt e => bareCallKeys name e
  | .block ss => bareCallKeysL name ss
  | .varDecl nm i? =>
      bareCallKeys name nm
        ++ (match i? with | some i => bareCallKeys name i | none => [])
  | .bindingPattern _ es => bareCallKeysL name es
  | .funcDecl _ _ _ (some b) => bareCallKeys name b
  | .funcDecl _ _ _ none => []
  | .funcExpr _ _ b => bareCallKeys name b
  | .arrowFunc _ _ b => bareCallKeys name b
  | .methodDecl _ _ _ (some b) => bareCallKeys name b
  | .methodDecl _ _ _ none => []
  | .classDecl _ ms => bareCallKeysL name ms
  | .objectLit ps => bareCallKeysL name ps
  | .shorthandProp _ => []
  | .propAssign _ i => bareCallKeys name i

def bareCallKeysL (name : String) : List Node → List Nat
  | [] => []
  | n :: ns => bareCallKeys name n ++ bareCallKeysL name ns
end

mutual
/-- Once `name` is in the function registry, every bare call site of `name`
is pushed by the emission pass (as a sublist, in order). -/
theorem bareCallKeys_sublist_visit (R : Registries) (name : String)
    (hf : R.fns.contains name = true) (pv : Option Node) :
    (n : Node) → bareCallKeys name n <+ Heuristic.visit R pv n
  | .call c as => by
      simp only [bareCallKeys, Heuristic.visit]
      refine List.Sublist.append (List.Sublist.append ?_ ?_) ?_
      · cases c with
        | ident i =>
            by_cases h : i.text == name
            · have hi : i.text = name := by
                simpa using h
              have hk : Heuristic.isKnownPromiseReturningCall R (.ident i) = true := by
                simp only [Heuristic.isKnownPromiseReturningCall, hi, hf, Bool.or_true]
              simp [h, hk, Heuristic.callCandidateKey]
            · simp [h]
        | propAccess o m => simp
        | _ => simp
      · exact bareCallKeys_sublist_visit R name hf none c
      · exact bareCallKeysL_sublist_visitL R name hf none as
  | .ident _ => by simp [bareCallKeys, Heuristic.visit]
  | .strLit _ => by simp [bareCallKeys, Heuristic.visit]
  | .numLit _ => by simp [bareCallKeys, Heuristic.visit]
  | .propAccess o _ => by
      simpa [bareCallKeys, Heuristic.visit] using
        bareCallKeys_sublist_visit R name hf none o
  | .newExpr c as => by
      simp only [bareCallKeys, Heuristic.visit]
      exact List.Sublist.append (bareCallKeys_sublist_visit R name hf none c)
        (bareCallKeysL_sublist_visitL R name hf none as)
  | .awaitExpr e => by
      simpa [bareCallKeys, Heuristic.visit] using
        bareCallKeys_sublist_visit R name hf none e
  | .assign l r => by
      simp only [bareCallKeys, Heuristic.visit]
      exact List.Sublist.append (bareCallKeys_sublist_visit R name hf none l)
        (bareCallKeys_sublist_visit R name hf none r)
  | .returnStmt (some e) => by
      simpa [bareCallKeys, Heuristic.visit] using
        bareCallKeys_sublist_visit R name hf none e
  | .returnStmt none => by simp [bareCallKeys, Heuristic.visit]
  | .exprStmt e => by
      simpa [bareCallKeys, Heuristic.visit] using
        bareCallKeys_sublist_visit R name hf none e
  | .block ss => by
      simpa [bareCallKeys, Heuristic.visit] using
        bareCallKeysL_sublist_visitL R name hf none ss
  | .varDecl nm i? => by
      cases i? with
      | some i =>
          simp only [bareCallKeys, Heuristic.visit]
          exact List.Sublist.append (bareCallKeys_sublist_visit R name hf (some nm) nm)
            (bareCallKeys_sublist_visit R name hf (some nm) i)
      | none =>
          simp only [bareCallKeys, Heuristic.visit]
          simpa using bareCallKeys_sublist_visit R name hf (some nm) nm
  | .bindingPattern _ es => by
      simpa [bareCallKeys, Heuristic.visit] using
        bareCallKeysL_sublist_visitL R name hf none es
  | .funcDecl nm? a ty (some b) => by
      simp only [bareCallKeys, Heuristic.visit]
      exact (bareCallKeys_sublist_visit R name hf none b).trans
        (List.sublist_append_right _ _)
  | .funcDecl nm? a ty none => by simp [bareCallKeys, Heuristic.visit]
  | .funcExpr a ty b => by
      simp only [bareCallKeys, Heuristic.visit]
      exact (bareCallKeys_sublist_visit R name hf none b).trans
        (List.sublist_append_right _ _)
  | .arrowFunc a ty b => by
      simp only [bareCallKeys, Heuristic.visit]
      exact (bareCallKeys_sublist_visit R name hf none b).trans
        (List.sublist_append_right _ _)
  | .methodDecl nm a ty (some b) => by
      simp only [bareCallKeys, Heuristic.visit]
      exact (bareCallKeys_sublist_visit R name hf none b).trans
        (List.sublist_append_right _ _)
  | .methodDecl nm a ty none => by simp [bareCallKeys, Heuristic.visit]
  | .classDecl _ ms => by
      simpa [bareCallKeys, Heuristic.visit] using
        bareCallKeysL_sublist_visitL R name hf none ms
  | .objectLit ps => by
      simpa [bareCallKeys, Heuristic.visit] using
        bareCallKeysL_sublist_visitL R name hf none ps
  | .shorthandProp _ => by simp [bareCallKeys, Heuristic.visit]
  | .propAssign _ i => by
      simpa [bareCallKeys, Heuristic.visit] using
        bareCallKeys_sublist_visit R name hf none i

theorem bareCallKeysL_sublist_visitL (R : Registries) (name : String)
    (hf : R.fns.contains name = true) (pv : Option Node) :
    (ns : List Node) → bareCallKeysL name ns <+ Heuristic.visitL R pv ns
  | [] => by simp [bareCallKeysL, Heuristic.visitL]
  | n :: ns => by
      simp only [bareCallKeysL, Heuristic.visitL]
      exact List.Sublist.append (bareCallKeys_sublist_visit R name hf pv n)
        (bareCallKeysL_sublist_visitL R name hf pv ns)
end

/-! ## Registry characterization lemmas (C6, C9) -/

/-- The single binding contributed by the head of
`collectInstanceVariables` at one node. -/
def instBindOf (n : Node) : List (String × String) :=
  match n with
  | .varDecl (.ident v) (some (.newExpr (.ident c) _)) => [(v.text, c.text)]
  | _ => []

theorem instBindOf_reverse (n : Node) : (instBindOf n).reverse = instBindOf n := by
  unfold instBindOf
  split <;> simp

theorem bindInstanceVariable_eq (n : Node) (R : Registries) :
    Heuristic.bindInstanceVariable n R = { R with inst := instBindOf n ++ R.inst } := by
  unfold Heuristic.bindInstanceVariable instBindOf
  split
  · simp [aset]
  · simp

mutual
/-- The `(variable, class)` pairs that `collectInstanceVariables` matches,
in collection traversal order. -/
def instBindings : Node → List (String × String)
  | .varDecl nm i? =>
      instBindOf (.varDecl nm i?) ++ instBindings nm
        ++ (match i? with | some i => instBindings i | none => [])
  | .ident _ => []
  | .strLit _ => []
  | .numLit _ => []
  | .propAccess o _ => instBindings o
  | .call c as => instBindings c ++ instBindingsL as
  | .newExpr c as => instBindings c ++ instBindingsL as
  | .awaitExpr e => instBindings e
  | .assign l r => instBindings l ++ instBindings r
  | .returnStmt (some e) => instBindings e
  | .returnStmt none => []
  | .exprStmt e => instBindings e
  | .block ss => instBindingsL ss
  | .bindingPattern _ es => instBindingsL es
  | .funcDecl _ _ _ (some b) => instBindings b
  | .funcDecl _ _ _ none => []
  | .funcExpr _ _ b => instBindings b
  | .arrowFunc _ _ b => instBindings b
  | .methodDecl _ _ _ (some b) => instBindings b
  | .methodDecl _ _ _ none => []
  | .classDecl _ ms => instBindingsL ms
  | .objectLit ps => instBindingsL ps
  | .shorthandProp _ => []
  | .propAssign _ i => instBindings i

def instBindingsL : List Node → List (String × String)
  | [] => []
  | n :: ns => instBindings n ++ instBindingsL ns
end

/-- The class of the *last* matching declaration `v = new C(...)` in the
collection traversal order of the unit, if any. -/
def lastInstClass (t : Node) (v : String) : Option String :=
  alookup (instBindings t).reverse v

mutual
/-- `collectInstanceVariables` only extends the InstanceMap, with exactly
the traversal-ordered bindings, most recently set first. -/
theorem collectInst_spec :
    (n : Node) → ∀ R : Registries,
      Heuristic.collectInstanceVariables n R
        = { R with inst := (instBindings n).reverse ++ R.inst }
  | .varDecl nm i? => by
      intro R
      cases i? with
      | none =>
          simp only [Heuristic.collectInstanceVariables, instBindings]
          rw [bindInstanceVariable_eq, collectInst_spec nm]
          simp [instBindOf_reverse, List.append_assoc]
      | some i =>
          simp only [Heuristic.collectInstanceVariables, instBindings]
          rw [bindInstanceVariable_eq, collectInst_spec nm, collectInst_spec i]
          simp [instBindOf_reverse, List.append_assoc]
  | .ident _ => by intro R; simp [Heuristic.collectInstanceVariables, instBindings]
  | .strLit _ => by intro R; simp [Heuristic.collectInstanceVariables, instBindings]
  | .numLit _ => by intro R; simp [Heuristic.collectInstanceVariables, instBindings]
  | .propAccess o _ => by
      intro R
      simp only [Heuristic.collectInstanceVariables, instBindings]
      exact collectInst_spec o R
  | .call c as => by
      intro R
      simp only [Heuristic.collectInstanceVariables, instBindings]
      rw [collectInst_spec c, collectInstL_spec as]
      simp [List.append_assoc]
  | .newExpr c as => by
      intro R
      simp only [Heuristic.collectInstanceVariables, instBindings]
      rw [collectInst_spec c, collectInstL_spec as]
      simp [List.append_assoc]
  | .awaitExpr e => by
      intro R
      simp only [Heuristic.collectInstanceVariables, instBindings]
      exact collectInst_spec e R
  | .assign l r => by
      intro R
      simp only [Heuristic.collectInstanceVariables, instBindings]
      rw [collectInst_spec l, collectInst_spec r]
      simp [List.append_assoc]
  | .returnStmt (some e) => by
      intro R
      simp only [Heuristic.collectInstanceVariables, instBindings]
      exact collectInst_spec e R
  | .returnStmt none => by
      intro R; simp [Heuristic.collectInstanceVariables, instBindings]
  | .exprStmt e => by
      intro R
      simp only [Heuristic.collectInstanceVariables, instBindings]
      exact collectInst_spec e R
  | .block ss => by
      intro R
      simp only [Heuristic.collectInstanceVariables, instBindings]
      exact collectInstL_spec ss R
  | .bindingPattern _ es => by
      intro R
      simp only [Heuristic.collectInstanceVariables, instBindings]
      exact collectInstL_spec es R
  | .funcDecl _ _ _ (some b) => by
      intro R
      simp only [Heuristic.collectInstanceVariables, instBindings]
      exact collectInst_spec b R
  | .funcDecl _ _ _ none => by
      intro R; simp [Heuristic.collectInstanceVariables, instBindings]
  | .funcExpr _ _ b => by
      intro R
      simp only [Heuristic.collectInstanceVariables, instBindings]
      exact collectInst_spec b R
  | .arrowFunc _ _ b => by
      intro R
      simp only [Heuristic.collectInstanceVariables, instBindings]
      exact collectInst_spec b R
  | .methodDecl _ _ _ (some b) => by
      intro R
      simp only [Heuristic.collectInstanceVariables, instBindings]
      exact collectInst_spec b R
  | .methodDecl _ _ _ none => by
      intro R; simp [Heuristic.collectInstanceVariables, instBindings]
  | .classDecl _ ms => by
      intro R
      simp only [Heuristic.collectInstanceVariables, instBindings]
      exact collectInstL_spec ms R
  | .objectLit ps => by
      intro R
      simp only [Heuristic.collectInstanceVariables, instBindings]
      exact collectInstL_spec ps R
  | .shorthandProp _ => by
      intro R; simp [Heuristic.collectInstanceVariables, instBindings]
  | .propAssign _ i => by
      intro R
      simp only [Heuristic.collectInstanceVariables, instBindings]
      exact collectInst_spec i R

theorem collectInstL_spec :
    (ns : List Node) → ∀ R : Registries,
      Heuristic.collectInstanceVariablesL ns R
        = { R with inst := (instBindingsL ns).reverse ++ R.inst }
  | [] => by intro R; simp [Heuristic.collectInstanceVariablesL, instBindingsL]
  | n :: ns => by
      intro R
      simp only [Heuristic.collectInstanceVariablesL, instBindingsL]
      rw [collectInst_spec n, collectInstL_spec ns]
      simp [List.append_assoc]
end

theorem registerPromiseFunction_frame (ctx : Heuristic.CollectCtx) (n : Node)
    (R : Registries) :
    (Heuristic.registerPromiseFunction ctx n R).inst = R.inst
      ∧ (Heuristic.registerPromiseFunction ctx n R).objs = R.objs := by
  unfold Heuristic.registerPromiseFunction
  split
  · split
    · split <;> simp [addFn]
    · exact ⟨rfl, rfl⟩
  · split
    · split <;> simp [addMethod]
    · exact ⟨rfl, rfl⟩
  · split
    · split <;> simp [addFn]
    · exact ⟨rfl, rfl⟩
  · split
    · split <;> simp [addFn]
    · exact ⟨rfl, rfl⟩
  · exact ⟨rfl, rfl⟩

mutual
/-- `collectPromiseFunctions` never touches the InstanceMap or the
ObjectLiteralMap. -/
theorem collectFns_frame (ctx : Heuristic.CollectCtx) :
    (n : Node) → ∀ R : Registries,
      (Heuristic.collectPromiseFunctions ctx n R).inst = R.inst
        ∧ (Heuristic.collectPromiseFunctions ctx n R).objs = R.objs
  | .funcDecl nm? a ty b? => by
      intro R
      cases b? with
      | none =>
          simp only [Heuristic.collectPromiseFunctions]
          exact registerPromiseFunction_frame ctx _ R
      | some b =>
          simp only [Heuristic.collectPromiseFunctions]
          obtain ⟨h1, h2⟩ := collectFns_frame ⟨ctx.cls, none⟩ b
            (Heuristic.registerPromiseFunction ctx (.funcDecl nm? a ty (some b)) R)
          obtain ⟨h3, h4⟩ := registerPromiseFunction_frame ctx (.funcDecl nm? a ty (some b)) R
          exact ⟨h1.trans h3, h2.trans h4⟩
  | .methodDecl nm a ty b? => by
      intro R
      cases b? with
      | none =>
          simp only [Heuristic.collectPromiseFunctions]
          exact registerPromiseFunction_frame ctx _ R
      | some b =>
          simp only [Heuristic.collectPromiseFunctions]
          obtain ⟨h1, h2⟩ := collectFns_frame ⟨ctx.cls, none⟩ b
            (Heuristic.registerPromiseFunction ctx (.methodDecl nm a ty (some b)) R)
          obtain ⟨h3, h4⟩ := registerPromiseFunction_frame ctx (.methodDecl nm a ty (some b)) R
          exact ⟨h1.trans h3, h2.trans h4⟩
  | .arrowFunc a ty b => by
      intro R
      simp only [Heuristic.collectPromiseFunctions]
      obtain ⟨h1, h2⟩ := collectFns_frame ⟨ctx.cls, none⟩ b
        (Heuristic.registerPromiseFunction ctx (.arrowFunc a ty b) R)
      obtain ⟨h3, h4⟩ := registerPromiseFunction_frame ctx (.arrowFunc a ty b) R
      exact ⟨h1.trans h3, h2.trans h4⟩
  | .funcExpr a ty b => by
      intro R
      simp only [Heuristic.collectPromiseFunctions]
      obtain ⟨h1, h2⟩ := collectFns_frame ⟨ctx.cls, none⟩ b
        (Heuristic.registerPromiseFunction ctx (.funcExpr a ty b) R)
      obtain ⟨h3, h4⟩ := registerPromiseFunction_frame ctx (.funcExpr a ty b) R
      exact ⟨h1.trans h3, h2.trans h4⟩
  | .ident _ => by intro R; simp [Heuristic.collectPromiseFunctions]
  | .strLit _ => by intro R; simp [Heuristic.collectPromiseFunctions]
  | .numLit _ => by intro R; simp [Heuristic.collectPromiseFunctions]
  | .propAccess o _ => by
      intro R
      simp only [Heuristic.collectPromiseFunctions]
      exact collectFns_frame ⟨ctx.cls, none⟩ o R
  | .call c as => by
      intro R
      simp only [Heuristic.collectPromiseFunctions]
      obtain ⟨h1, h2⟩ := collectFns_frame ⟨ctx.cls, none⟩ c R
      obtain ⟨h3, h4⟩ := collectFnsL_frame ⟨ctx.cls, none⟩ as
        (Heuristic.collectPromiseFunctions ⟨ctx.cls, none⟩ c R)
      exact ⟨h3.trans h1, h4.trans h2⟩
  | .newExpr c as => by
      intro R
      simp only [Heuristic.collectPromiseFunctions]
      obtain ⟨h1, h2⟩ := collectFns_frame ⟨ctx.cls, none⟩ c R
      obtain ⟨h3, h4⟩ := collectFnsL_frame ⟨ctx.cls, none⟩ as
        (Heuristic.collectPromiseFunctions ⟨ctx.cls, none⟩ c R)
      exact ⟨h3.trans h1, h4.trans h2⟩
  | .awaitExpr e => by
      intro R
      simp only [Heuristic.collectPromiseFunctions]
      exact collectFns_frame ⟨ctx.cls, none⟩ e R
  | .assign l r => by
      intro R
      simp only [Heuristic.collectPromiseFunctions]
      obtain ⟨h1, h2⟩ := collectFns_frame ⟨ctx.cls, none⟩ l R
      obtain ⟨h3, h4⟩ := collectFns_frame ⟨ctx.cls, none⟩ r
        (Heuristic.collectPromiseFunctions ⟨ctx.cls, none⟩ l R)
      exact ⟨h3.trans h1, h4.trans h2⟩
  | .returnStmt (some e) => by
      intro R
      simp only [Heuristic.collectPromiseFunctions]
      exact collectFns_frame ⟨ctx.cls, none⟩ e R
  | .returnStmt none => by intro R; simp [Heuristic.collectPromiseFunctions]
  | .exprStmt e => by
      intro R
      simp only [Heuristic.collectPromiseFunctions]
      exact collectFns_frame ⟨ctx.cls, none⟩ e R
  | .block ss => by
      intro R
      simp only [Heuristic.collectPromiseFunctions]
      exact collectFnsL_frame ⟨ctx.cls, none⟩ ss R
  | .varDecl nm i? => by
      intro R
      cases i? with
      | none =>
          simp only [Heuristic.collectPromiseFunctions]
          exact collectFns_frame _ nm R
      | some i =>
          simp only [Heuristic.collectPromiseFunctions]
          exact ⟨((collectFns_frame _ i _).1).trans ((collectFns_frame _ nm R).1),
            ((collectFns_frame _ i _).2).trans ((collectFns_frame _ nm R).2)⟩
  | .bindingPattern _ es => by
      intro R
      simp only [Heuristic.collectPromiseFunctions]
      exact collectFnsL_frame ⟨ctx.cls, none⟩ es R
  | .classDecl nm? ms => by
      intro R
      simp only [Heuristic.collectPromiseFunctions]
      exact collectFnsL_frame _ ms R
  | .objectLit ps => by
      intro R
      simp only [Heuristic.collectPromiseFunctions]
      exact collectFnsL_frame ⟨ctx.cls, none⟩ ps R
  | .shorthandProp _ => by intro R; simp [Heuristic.collectPromiseFunctions]
  | .propAssign _ i => by
      intro R
      simp only [Heuristic.collectPromiseFunctions]
      exact collectFns_frame ⟨ctx.cls, none⟩ i R

theorem collectFnsL_frame (ctx : Heuristic.CollectCtx) :
    (ns : List Node) → ∀ R : Registries,
      (Heuristic.collectPromiseFunctionsL ctx ns R).inst = R.inst
        ∧ (Heuristic.collectPromiseFunctionsL ctx ns R).objs = R.objs
  | [] => by intro R; simp [Heuristic.collectPromiseFunctionsL]
  | n :: ns => by
      intro R
      simp only [Heuristic.collectPromiseFunctionsL]
      obtain ⟨h1, h2⟩ := collectFns_frame ctx n R
      obtain ⟨h3, h4⟩ := collectFnsL_frame ctx ns (Heuristic.collectPromiseFunctions ctx n R)
      exact ⟨h3.trans h1, h4.trans h2⟩
end

theorem bindObjectLiteral_frame (n : Node) (R : Registries) :
    (Heuristic.bindObjectLiteral n R).fns = R.fns
      ∧ (Heuristic.bindObjectLiteral n R).methods = R.methods
      ∧ (Heuristic.bindObjectLiteral n R).inst = R.inst := by
  unfold Heuristic.bindObjectLiteral
  split
  · dsimp only
    split <;> exact ⟨rfl, rfl, rfl⟩
  · exact ⟨rfl, rfl, rfl⟩

mutual
/-- `collectObjectLiterals` (heuristic provider) never touches the
FunctionRegistry, the MethodRegistry, or the InstanceMap. -/
theorem collectObjs_frame :
    (n : Node) → ∀ R : Registries,
      (Heuristic.collectObjectLiterals n R).fns = R.fns
        ∧ (Heuristic.collectObjectLiterals n R).methods = R.methods
        ∧ (Heuristic.collectObjectLiterals n R).inst = R.inst
  | .ident _ => by intro R; simp [Heuristic.collectObjectLiterals]
  | .strLit _ => by intro R; simp [Heuristic.collectObjectLiterals]
  | .numLit _ => by intro R; simp [Heuristic.collectObjectLiterals]
  | .propAccess o _ => by
      intro R
      simp only [Heuristic.collectObjectLiterals]
      exact collectObjs_frame o R
  | .call c as => by
      intro R
      simp only [Heuristic.collectObjectLiterals]
      obtain ⟨h1, h2, h3⟩ := collectObjs_frame c R
      obtain ⟨h4, h5, h6⟩ := collectObjsL_frame as (Heuristic.collectObjectLiterals c R)
      exact ⟨h4.trans h1, h5.trans h2, h6.trans h3⟩
  | .newExpr c as => by
      intro R
      simp only [Heuristic.collectObjectLiterals]
      obtain ⟨h1, h2, h3⟩ := collectObjs_frame c R
      obtain ⟨h4, h5, h6⟩ := collectObjsL_frame as (Heuristic.collectObjectLiterals c R)
      exact ⟨h4.trans h1, h5.trans h2, h6.trans h3⟩
  | .awaitExpr e => by
      intro R
      simp only [Heuristic.collectObjectLiterals]
      exact collectObjs_frame e R
  | .assign l r => by
      intro R
      simp only [Heuristic.collectObjectLiterals]
      obtain ⟨h1, h2, h3⟩ := collectObjs_frame l R
      obtain ⟨h4, h5, h6⟩ := collectObjs_frame r (Heuristic.collectObjectLiterals l R)
      exact ⟨h4.trans h1, h5.trans h2, h6.trans h3⟩
  | .returnStmt (some e) => by
      intro R
      simp only [Heuristic.collectObjectLiterals]
      exact collectObjs_frame e R
  | .returnStmt none => by intro R; simp [Heuristic.collectObjectLiterals]
  | .exprStmt e => by
      intro R
      simp only [Heuristic.collectObjectLiterals]
      exact collectObjs_frame e R
  | .block ss => by
      intro R
      simp only [Heuristic.collectObjectLiterals]
      exact collectObjsL_frame ss R
  | .varDecl nm i? => by
      intro R
      obtain ⟨b1, b2, b3⟩ := bindObjectLiteral_frame (.varDecl nm i?) R
      cases i? with
      | none =>
          simp only [Heuristic.collectObjectLiterals]
          obtain ⟨h1, h2, h3⟩ := collectObjs_frame nm
            (Heuristic.bindObjectLiteral (.varDecl nm none) R)
          exact ⟨h1.trans b1, h2.trans b2, h3.trans b3⟩
      | some i =>
          simp only [Heuristic.collectObjectLiterals]
          obtain ⟨h1, h2, h3⟩ := collectObjs_frame nm
            (Heuristic.bindObjectLiteral (.varDecl nm (some i)) R)
          obtain ⟨h4, h5, h6⟩ := collectObjs_frame i
            (Heuristic.collectObjectLiterals nm
              (Heuristic.bindObjectLiteral (.varDecl nm (some i)) R))
          exact ⟨(h4.trans h1).trans b1, (h5.trans h2).trans b2, (h6.trans h3).trans b3⟩
  | .bindingPattern _ es => by
      intro R
      simp only [Heuristic.collectObjectLiterals]
      exact collectObjsL_frame es R
  | .funcDecl _ _ _ (some b) => by
      intro R
      simp only [Heuristic.collectObjectLiterals]
      exact collectObjs_frame b R
  | .funcDecl _ _ _ none => by intro R; simp [Heuristic.collectObjectLiterals]
  | .funcExpr _ _ b => by
      intro R
      simp only [Heuristic.collectObjectLiterals]
      exact collectObjs_frame b R
  | .arrowFunc _ _ b => by
      intro R
      simp only [Heuristic.collectObjectLiterals]
      exact collectObjs_frame b R
  | .methodDecl _ _ _ (some b) => by
      intro R
      simp only [Heuristic.collectObjectLiterals]
      exact collectObjs_frame b R
  | .methodDecl _ _ _ none => by intro R; simp [Heuristic.collectObjectLiterals]
  | .classDecl _ ms => by
      intro R
      simp only [Heuristic.collectObjectLiterals]
      exact collectObjsL_frame ms R
  | .objectLit ps => by
      intro R
      simp only [Heuristic.collectObjectLiterals]
      exact collectObjsL_frame ps R
  | .shorthandProp _ => by intro R; simp [Heuristic.collectObjectLiterals]
  | .propAssign _ i => by
      intro R
      simp only [Heuristic.collectObjectLiterals]
      exact collectObjs_frame i R

theorem collectObjsL_frame :
    (ns : List Node) → ∀ R : Registries,
      (Heuristic.collectObjectLiteralsL ns R).fns = R.fns
        ∧ (Heuristic.collectObjectLiteralsL ns R).methods = R.methods
        ∧ (Heuristic.collectObjectLiteralsL ns R).inst = R.inst
  | [] => by intro R; simp [Heuristic.collectObjectLiteralsL]
  | n :: ns => by
      intro R
      simp only [Heuristic.collectObjectLiteralsL]
      obtain ⟨h1, h2, h3⟩ := collectObjs_frame n R
      obtain ⟨h4, h5, h6⟩ := collectObjsL_frame ns (Heuristic.collectObjectLiterals n R)
      exact ⟨h4.trans h1, h5.trans h2, h6.trans h3⟩
end

/-- The InstanceMap of the built registries is exactly the traversal-ordered
binding list, most recent first. -/
theorem buildRegistries_inst (t : Node) :
    (Heuristic.buildRegistries t).inst = (instBindings t).reverse := by
  unfold Heuristic.buildRegistries
  rw [(collectObjs_frame t _).2.2, collectInst_spec t,
    (collectFns_frame ⟨none, none⟩ t Registries.empty).1]
  simp [Registries.empty]

/-- The instance-variable step of call-level classification: when the other
lookups do not interfere, `v.m()` is classified exactly by membership of
`m` in the MethodRegistry entry of the class InstanceMap assigns to `v`. -/
theorem isKnown_inst_lookup (R : Registries) (kv km : Nat) (v m X : String)
    (hv : alookup R.inst v = some X)
    (hP : v ≠ "Promise")
    (hM : methodsHas R v m = false)
    (hO : objsHas R v m = false) :
    Heuristic.isKnownPromiseReturningCall R (.propAccess (.ident ⟨kv, v⟩) ⟨km, m⟩)
      = methodsHas R X m := by
  simp [Heuristic.isKnownPromiseReturningCall, hv, hM, hO, hP]

/-! ## Claims C6 and C9 -/

/-- **C6 (counterexample).** The unit
`const v = new X(); const v = new Y(); class Y { async m(){} } v.m()`
contains a declaration `v = new X()` followed by the call `v.m()`, and the
call is classified positive — yet `m` is *not* registered against `X` in
the MethodRegistry (the second declaration overwrote the InstanceMap entry
and `m` is registered against `Y`), so the claimed "iff" fails. -/
theorem C6_counterexample :
    let t : Node := .block
      [.varDecl (.ident ⟨1, "v"⟩) (some (.newExpr (.ident ⟨2, "X"⟩) [])),
       .varDecl (.ident ⟨3, "v"⟩) (some (.newExpr (.ident ⟨4, "Y"⟩) [])),
       .classDecl (some ⟨5, "Y"⟩) [.methodDecl ⟨6, "m"⟩ true none (some (.block []))],
       .exprStmt (.call (.propAccess (.ident ⟨7, "v"⟩) ⟨8, "m"⟩) [])]
    methodsHas (Heuristic.buildRegistries t) "X" "m" = false
      ∧ Heuristic.isKnownPromiseReturningCall (Heuristic.buildRegistries t)
          (.propAccess (.ident ⟨7, "v"⟩) ⟨8, "m"⟩) = true
      ∧ 8 ∈ Heuristic.provide t := by
  decide

/-- **C6 (amended).** Call classification of `v.m()` also consults the
literal receiver name `Promise`, the MethodRegistry under the name `v`
itself, and the ObjectLiteralMap, and `v = new X()` only survives into the
InstanceMap if it is the last instance binding of `v`.  When none of those
interfere — InstanceMap maps `v` to `X`, `v` is not named `Promise`, no
class named `v` registers `m`, no object-literal entry for `v` contains
`m` — the call `v.m()` is classified positive iff `m` is registered
against `X` in the MethodRegistry. -/
theorem C6_amended_call_classification (R : Registries) (kv km : Nat) (v m X : String)
    (hv : alookup R.inst v = some X)
    (hP : v ≠ "Promise")
    (hM : methodsHas R v m = false)
    (hO : objsHas R v m = false) :
    Heuristic.isKnownPromiseReturningCall R (.propAccess (.ident ⟨kv, v⟩) ⟨km, m⟩)
      = methodsHas R X m :=
  isKnown_inst_lookup R kv km v m X hv hP hM hO

/-- Witness for C6 at concrete registries `{X ↦ {m}}`, `{v ↦ X}`. -/
theorem C6_witness :
    Heuristic.isKnownPromiseReturningCall ⟨[], [("X", ["m"])], [("v", "X")], []⟩
      (.propAccess (.ident ⟨0, "v"⟩) ⟨1, "m"⟩)
      = methodsHas ⟨[], [("X", ["m"])], [("v", "X")], []⟩ "X" "m" :=
  C6_amended_call_classification ⟨[], [("X", ["m"])], [("v", "X")], []⟩ 0 1 "v" "m" "X"
    (by decide) (by decide) (by decide) (by decide)

/-- **C9.** InstanceMap binding is keyed by bare variable name with no
scope analysis and is last-write-wins: the built InstanceMap maps each
name to the class of the binding encountered *last* in the collection
traversal (`lastInstClass`), and call classification anywhere in the unit
consults exactly that entry (under the non-interference conditions of the
call rule), not the lexically nearest binding. -/
theorem C9_last_write_wins :
    (∀ (t : Node) (v : String),
        alookup (Heuristic.buildRegistries t).inst v = lastInstClass t v)
      ∧ (∀ (t : Node) (kv km : Nat) (v m X : String),
          lastInstClass t v = some X →
          v ≠ "Promise" →
          methodsHas (Heuristic.buildRegistries t) v m = false →
          objsHas (Heuristic.buildRegistries t) v m = false →
          Heuristic.isKnownPromiseReturningCall (Heuristic.buildRegistries t)
              (.propAccess (.ident ⟨kv, v⟩) ⟨km, m⟩)
            = methodsHas (Heuristic.buildRegistries t) X m) := by
  have hbase : ∀ (t : Node) (v : String),
      alookup (Heuristic.buildRegistries t).inst v = lastInstClass t v := by
    intro t v
    rw [buildRegistries_inst]
    rfl
  refine ⟨hbase, fun t kv km v m X hlast hP hM hO => ?_⟩
  exact isKnown_inst_lookup _ kv km v m X ((hbase t v).trans hlast) hP hM hO

/-- Witness for C9: two bindings of `v` (`new X()`, then `new Y()`) and
`class Y { async m(){} }`; the last class `Y` wins and classification of
`v.m()` follows `Y`'s method registry entry. -/
theorem C9_witness :
    let t : Node := .block
      [.varDecl (.ident ⟨1, "v"⟩) (some (.newExpr (.ident ⟨2, "X"⟩) [])),
       .varDecl (.ident ⟨3, "v"⟩) (some (.newExpr (.ident ⟨4, "Y"⟩) [])),
       .classDecl (some ⟨5, "Y"⟩) [.methodDecl ⟨6, "m"⟩ true none (some (.block []))]]
    Heuristic.isKnownPromiseReturningCall (Heuristic.buildRegistries t)
        (.propAccess (.ident ⟨7, "v"⟩) ⟨8, "m"⟩)
      = methodsHas (Heuristic.buildRegistries t) "Y" "m" :=
  C9_last_write_wins.2 _ 7 8 "v" "m" "Y" (by decide) (by decide) (by decide) (by decide)

/-! ## Claim C10 -/

/-- **C10 (counterexample).** For `const [] = async () => {}` — a variable
declaration whose name is a binding *pattern* (span key 5) with an arrow
initializer — the emission pass pushes `node.parent.name` without checking
that it is an identifier, so a definition span (the pattern's span) *is*
emitted even though the parent's name is not an identifier; no name is
registered.  This refutes the claim's "emitted ... only when its direct
parent node is a variable declaration with an identifier name". -/
theorem C10_counterexample :
    let t : Node := .varDecl (.bindingPattern 5 []) (some (.arrowFunc true none (.block [])))
    Heuristic.provide t = [5] ∧ (Heuristic.buildRegistries t).fns = [] := by
  decide

/-- **C10 (amended).** An arrow function or function expression is
*registered* only when its direct parent is a variable declaration with an
identifier name; with no such parent (plain assignment, object property,
anonymous argument — all of which give the node no variable-declaration
parent) it registers nothing and emits no definition span, and the case is
skipped without error (all passes are total).  *Emission*, however, only
requires the parent to be a variable declaration: the parent's name span
is pushed even when the name is a binding pattern. -/
theorem C10_amended_arrow_naming (R : Registries) (cls : Option String) (pv : Option Node)
    (k : Nat) (x : String) (es : List Node) (a : Bool) (ty : Option String) (b : Node) :
    (Heuristic.visit R none (.arrowFunc a ty b) = Heuristic.visit R none b)
      ∧ (Heuristic.visit R none (.funcExpr a ty b) = Heuristic.visit R none b)
      ∧ (Heuristic.registerPromiseFunction ⟨cls, none⟩ (.arrowFunc a ty b) R = R)
      ∧ (Heuristic.registerPromiseFunction ⟨cls, none⟩ (.funcExpr a ty b) R = R)
      ∧ (Heuristic.visit R pv (.assign (.ident ⟨k, x⟩) (.arrowFunc a ty b))
          = Heuristic.visit R none b)
      ∧ (Heuristic.visit R pv (.propAssign ⟨k, x⟩ (.arrowFunc a ty b))
          = Heuristic.visit R none b)
      ∧ (Heuristic.isFunctionReturningPromise R (.arrowFunc a ty b) = true →
          Heuristic.visit R pv (.varDecl (.ident ⟨k, x⟩) (some (.arrowFunc a ty b)))
              = k :: Heuristic.visit R none b
            ∧ Heuristic.registerPromiseFunction ⟨cls, some x⟩ (.arrowFunc a ty b) R
              = addFn x R
            ∧ Heuristic.visit R pv (.varDecl (.bindingPattern k es) (some (.arrowFunc a ty b)))
              = Heuristic.visitL R none es ++ k :: Heuristic.visit R none b) := by
  refine ⟨?_, ?_, ?_, ?_, ?_, ?_, fun h => ⟨?_, ?_, ?_⟩⟩
  · simp [Heuristic.visit]
  · simp [Heuristic.visit]
  · simp [Heuristic.registerPromiseFunction]
  · simp [Heuristic.registerPromiseFunction]
  · simp [Heuristic.visit]
  · simp [Heuristic.visit]
  · simp [Heuristic.visit, h, getNodeKey]
  · simp [Heuristic.registerPromiseFunction, h]
  · simp [Heuristic.visit, h, getNodeKey]

/-- Witness for C10: an async arrow bound by `const f = async () => {}`
(name span 3) is emitted as a definition span and registered. -/
theorem C10_witness :
    Heuristic.visit Registries.empty none
        (.varDecl (.ident ⟨3, "f"⟩) (some (.arrowFunc true none (.block []))))
        = 3 :: Heuristic.visit Registries.empty none (.block [])
      ∧ Heuristic.registerPromiseFunction ⟨none, some "f"⟩
          (.arrowFunc true none (.block [])) Registries.empty
        = addFn "f" Registries.empty :=
  ⟨((C10_amended_arrow_naming Registries.empty none none 3 "f" [] true none
      (.block [])).2.2.2.2.2.2 (by decide)).1,
   ((C10_amended_arrow_naming Registries.empty none none 3 "f" [] true none
      (.block [])).2.2.2.2.2.2 (by decide)).2.1⟩

/-! ## String-literal invariance (C7) -/

mutual
/-- Rewrite the text of every string literal in the tree, leaving all
structure, identifiers, flags, and type-annotation text unchanged. -/
def mapStr (f : String → String) : Node → Node
  | .ident i => .ident i
  | .strLit s => .strLit (f s)
  | .numLit v => .numLit v
  | .propAccess o nm => .propAccess (mapStr f o) nm
  | .call c as => .call (mapStr f c) (mapStrL f as)
  | .newExpr c as => .newExpr (mapStr f c) (mapStrL f as)
  | .awaitExpr e => .awaitExpr (mapStr f e)
  | .assign l r => .assign (mapStr f l) (mapStr f r)
  | .returnStmt (some e) => .returnStmt (some (mapStr f e))
  | .returnStmt none => .returnStmt none
  | .exprStmt e => .exprStmt (mapStr f e)
  | .block ss => .block (mapStrL f ss)
  | .varDecl nm i? =>
      .varDecl (mapStr f nm) (match i? with | some i => some (mapStr f i) | none => none)
  | .bindingPattern k es => .bindingPattern k (mapStrL f es)
  | .funcDecl nm? a ty b? =>
      .funcDecl nm? a ty (match b? with | some b => some (mapStr f b) | none => none)
  | .funcExpr a ty b => .funcExpr a ty (mapStr f b)
  | .arrowFunc a ty b => .arrowFunc a ty (mapStr f b)
  | .methodDecl nm a ty b? =>
      .methodDecl nm a ty (match b? with | some b => some (mapStr f b) | none => none)
  | .classDecl nm? ms => .classDecl nm? (mapStrL f ms)
  | .objectLit ps => .objectLit (mapStrL f ps)
  | .shorthandProp nm => .shorthandProp nm
  | .propAssign nm i => .propAssign nm (mapStr f i)

def mapStrL (f : String → String) : List Node → List Node
  | [] => []
  | n :: ns => mapStr f n :: mapStrL f ns
end

theorem isBlock_mapStr (f : String → String) (n : Node) :
    isBlock (mapStr f n) = isBlock n := by
  cases n <;> try rfl
  case returnStmt e? => cases e? <;> rfl
  case varDecl nm i? => cases i? <;> rfl
  case funcDecl nm? a ty b? => cases b? <;> rfl
  case methodDecl nm a ty b? => cases b? <;> rfl

theorem isAsyncFn_mapStr (f : String → String) (n : Node) :
    isAsyncFn (mapStr f n) = isAsyncFn n := by
  cases n <;> try rfl
  case returnStmt e? => cases e? <;> rfl
  case varDecl nm i? => cases i? <;> rfl
  case funcDecl nm? a ty b? => cases b? <;> rfl
  case methodDecl nm a ty b? => cases b? <;> rfl

theorem retTyOf_mapStr (f : String → String) (n : Node) :
    retTyOf (mapStr f n) = retTyOf n := by
  cases n <;> try rfl
  case returnStmt e? => cases e? <;> rfl
  case varDecl nm i? => cases i? <;> rfl
  case funcDecl nm? a ty b? => cases b? <;> rfl
  case methodDecl nm a ty b? => cases b? <;> rfl

theorem getNodeKey_mapStr (f : String → String) (n : Node) :
    getNodeKey (mapStr f n) = getNodeKey n := by
  cases n <;> try rfl
  case returnStmt e? => cases e? <;> rfl
  case varDecl nm i? => cases i? <;> rfl
  case funcDecl nm? a ty b? => cases b? <;> rfl
  case methodDecl nm a ty b? => cases b? <;> rfl

theorem callCandidateKey_mapStr (f : String → String) (n : Node) :
    Heuristic.callCandidateKey (mapStr f n) = Heuristic.callCandidateKey n := by
  cases n <;> try rfl
  case returnStmt e? => cases e? <;> rfl
  case varDecl nm i? => cases i? <;> rfl
  case funcDecl nm? a ty b? => cases b? <;> rfl
  case methodDecl nm a ty b? => cases b? <;> rfl

@[simp]
theorem mapStr_returnStmt (f : String → String) (e? : Option Node) :
    mapStr f (.returnStmt e?) =
      .returnStmt (match e? with | some e => some (mapStr f e) | none => none) := by
  cases e? <;> rfl

@[simp]
theorem mapStr_varDecl (f : String → String) (nm : Node) (i? : Option Node) :
    mapStr f (.varDecl nm i?) =
      .varDecl (mapStr f nm) (match i? with | some i => some (mapStr f i) | none => none) := by
  cases i? <;> rfl

@[simp]
theorem mapStr_funcDecl (f : String → String) (nm? : Option Ident) (a : Bool)
    (ty : Option String) (b? : Option Node) :
    mapStr f (.funcDecl nm? a ty b?) =
      .funcDecl nm? a ty (match b? with | some b => some (mapStr f b) | none => none) := by
  cases b? <;> rfl

@[simp]
theorem mapStr_methodDecl (f : String → String) (nm : Ident) (a : Bool)
    (ty : Option String) (b? : Option Node) :
    mapStr f (.methodDecl nm a ty b?) =
      .methodDecl nm a ty (match b? with | some b => some (mapStr f b) | none => none) := by
  cases b? <;> rfl

theorem isKnown_mapStr (R : Registries) (f : String → String) (c : Node) :
    Heuristic.isKnownPromiseReturningCall R (mapStr f c)
      = Heuristic.isKnownPromiseReturningCall R c := by
  cases c <;> try simp [mapStr, Heuristic.isKnownPromiseReturningCall]
  case propAccess o nm =>
    cases o <;> simp [mapStr, Heuristic.isKnownPromiseReturningCall]

theorem isExpr_mapStr (R : Registries) (f : String → String) (e : Node) :
    Heuristic.isExpressionReturningPromise R (mapStr f e)
      = Heuristic.isExpressionReturningPromise R e := by
  cases e <;> try simp [mapStr, Heuristic.isExpressionReturningPromise]
  case newExpr c as =>
    cases c <;> simp [mapStr, Heuristic.isExpressionReturningPromise]
  case call c as =>
    have hk := isKnown_mapStr R f c
    cases c <;>
      simp_all [mapStr, Heuristic.isExpressionReturningPromise]
    case propAccess o nm =>
      cases o <;> simp_all [mapStr]

mutual
theorem scan_mapStr (R : Registries) (f : String → String) :
    (n : Node) → Heuristic.scanReturns R (mapStr f n) = Heuristic.scanReturns R n
  | .returnStmt (some e) => by
      simp only [mapStr, Heuristic.scanReturns, isExpr_mapStr, scan_mapStr R f e]
  | .returnStmt none => by simp [mapStr, Heuristic.scanReturns]
  | .funcDecl nm? a ty b? => by
      cases b? <;> simp [mapStr, Heuristic.scanReturns]
  | .arrowFunc a ty b => by simp [mapStr, Heuristic.scanReturns]
  | .funcExpr a ty b => by simp [mapStr, Heuristic.scanReturns]
  | .ident _ => by simp [mapStr, Heuristic.scanReturns]
  | .strLit _ => by simp [mapStr, Heuristic.scanReturns]
  | .numLit _ => by simp [mapStr, Heuristic.scanReturns]
  | .propAccess o _ => by
      simp only [mapStr, Heuristic.scanReturns, scan_mapStr R f o]
  | .call c as => by
      simp only [mapStr, Heuristic.scanReturns, scan_mapStr R f c, scanL_mapStr R f as]
  | .newExpr c as => by
      simp only [mapStr, Heuristic.scanReturns, scan_mapStr R f c, scanL_mapStr R f as]
  | .awaitExpr e => by
      simp only [mapStr, Heuristic.scanReturns, scan_mapStr R f e]
  | .assign l r => by
      simp only [mapStr, Heuristic.scanReturns, scan_mapStr R f l, scan_mapStr R f r]
  | .exprStmt e => by
      simp only [mapStr, Heuristic.scanReturns, scan_mapStr R f e]
  | .block ss => by
      simp only [mapStr, Heuristic.scanReturns, scanL_mapStr R f ss]
  | .varDecl nm i? => by
      cases i? with
      | none => simp only [mapStr, Heuristic.scanReturns, scan_mapStr R f nm]
      | some i =>
          simp only [mapStr, Heuristic.scanReturns, scan_mapStr R f nm, scan_mapStr R f i]
  | .bindingPattern _ es => by
      simp only [mapStr, Heuristic.scanReturns, scanL_mapStr R f es]
  | .methodDecl nm a ty b? => by
      cases b? with
      | none => simp [mapStr, Heuristic.scanReturns]
      | some b => simp only [mapStr, Heuristic.scanReturns, scan_mapStr R f b]
  | .classDecl _ ms => by
      simp only [mapStr, Heuristic.scanReturns, scanL_mapStr R f ms]
  | .objectLit ps => by
      simp only [mapStr, Heuristic.scanReturns, scanL_mapStr R f ps]
  | .shorthandProp _ => by simp [mapStr, Heuristic.scanReturns]
  | .propAssign _ i => by
      simp only [mapStr, Heuristic.scanReturns, scan_mapStr R f i]

theorem scanL_mapStr (R : Registries) (f : String → String) :
    (ns : List Node) → Heuristic.scanReturnsL R (mapStrL f ns) = Heuristic.scanReturnsL R ns
  | [] => by simp [mapStrL, Heuristic.scanReturnsL]
  | n :: ns => by
      simp only [mapStrL, Heuristic.scanReturnsL, scan_mapStr R f n, scanL_mapStr R f ns]
end

theorem hasPattern_mapStr (R : Registries) (f : String → String) (n : Node) :
    Heuristic.hasPromiseReturnPattern R (mapStr f n)
      = Heuristic.hasPromiseReturnPattern R n := by
  cases n <;>
    try simp [mapStr, Heuristic.hasPromiseReturnPattern, isBlock_mapStr, scan_mapStr,
      isExpr_mapStr]
  case funcDecl nm? a ty b? =>
    cases b? <;>
      simp [mapStr, Heuristic.hasPromiseReturnPattern, isBlock_mapStr, scan_mapStr]
  case methodDecl nm a ty b? =>
    cases b? <;>
      simp [mapStr, Heuristic.hasPromiseReturnPattern, isBlock_mapStr, scan_mapStr]

theorem isFn_mapStr (R : Registries) (f : String → String) (n : Node) :
    Heuristic.isFunctionReturningPromise R (mapStr f n)
      = Heuristic.isFunctionReturningPromise R n := by
  simp [Heuristic.isFunctionReturningPromise, isAsyncFn_mapStr, retTyOf_mapStr,
    hasPattern_mapStr]

theorem varDeclCtxName_mapStr (f : String → String) (n : Node) :
    Heuristic.varDeclCtxName (mapStr f n) = Heuristic.varDeclCtxName n := by
  cases n <;> simp [mapStr, Heuristic.varDeclCtxName]

theorem isFn_mapStr_arrow (R : Registries) (f : String → String) (a : Bool)
    (ty : Option String) (b : Node) :
    Heuristic.isFunctionReturningPromise R (.arrowFunc a ty (mapStr f b))
      = Heuristic.isFunctionReturningPromise R (.arrowFunc a ty b) := by
  simpa [mapStr] using isFn_mapStr R f (.arrowFunc a ty b)

theorem isFn_mapStr_funcExpr (R : Registries) (f : String → String) (a : Bool)
    (ty : Option String) (b : Node) :
    Heuristic.isFunctionReturningPromise R (.funcExpr a ty (mapStr f b))
      = Heuristic.isFunctionReturningPromise R (.funcExpr a ty b) := by
  simpa [mapStr] using isFn_mapStr R f (.funcExpr a ty b)

theorem isFn_mapStr_funcDeclSome (R : Registries) (f : String → String)
    (nm? : Option Ident) (a : Bool) (ty : Option String) (b : Node) :
    Heuristic.isFunctionReturningPromise R (.funcDecl nm? a ty (some (mapStr f b)))
      = Heuristic.isFunctionReturningPromise R (.funcDecl nm? a ty (some b)) := by
  simpa [mapStr] using isFn_mapStr R f (.funcDecl nm? a ty (some b))

theorem isFn_mapStr_methodDeclSome (R : Registries) (f : String → String)
    (nm : Ident) (a : Bool) (ty : Option String) (b : Node) :
    Heuristic.isFunctionReturningPromise R (.methodDecl nm a ty (some (mapStr f b)))
      = Heuristic.isFunctionReturningPromise R (.methodDecl nm a ty (some b)) := by
  simpa [mapStr] using isFn_mapStr R f (.methodDecl nm a ty (some b))

theorem register_mapStr (f : String → String) (ctx : Heuristic.CollectCtx) (n : Node)
    (R : Registries) :
    Heuristic.registerPromiseFunction ctx (mapStr f n) R
      = Heuristic.registerPromiseFunction ctx n R := by
  cases n <;> try simp [mapStr, Heuristic.registerPromiseFunction]
  case funcDecl nm? a ty b? =>
    cases b? with
    | none => rfl
    | some b =>
        simp [mapStr, Heuristic.registerPromiseFunction, isFn_mapStr_funcDeclSome]
  case methodDecl nm a ty b? =>
    cases b? with
    | none => rfl
    | some b =>
        simp [mapStr, Heuristic.registerPromiseFunction, isFn_mapStr_methodDeclSome]
  case arrowFunc a ty b =>
    simp [mapStr, Heuristic.registerPromiseFunction, isFn_mapStr_arrow]
  case funcExpr a ty b =>
    simp [mapStr, Heuristic.registerPromiseFunction, isFn_mapStr_funcExpr]

mutual
theorem collectFns_mapStr (f : String → String) :
    (n : Node) → ∀ (ctx : Heuristic.CollectCtx) (R : Registries),
      Heuristic.collectPromiseFunctions ctx (mapStr f n) R
        = Heuristic.collectPromiseFunctions ctx n R
  | .funcDecl nm? a ty b? => by
      intro ctx R
      cases b? with
      | none => rfl
      | some b =>
          have hr := register_mapStr f ctx (.funcDecl nm? a ty (some b)) R
          simp only [mapStr] at hr
          simp only [mapStr, Heuristic.collectPromiseFunctions, hr,
            collectFns_mapStr f b]
  | .methodDecl nm a ty b? => by
      intro ctx R
      cases b? with
      | none => rfl
      | some b =>
          have hr := register_mapStr f ctx (.methodDecl nm a ty (some b)) R
          simp only [mapStr] at hr
          simp only [mapStr, Heuristic.collectPromiseFunctions, hr,
            collectFns_mapStr f b]
  | .arrowFunc a ty b => by
      intro ctx R
      have hr := register_mapStr f ctx (.arrowFunc a ty b) R
      simp only [mapStr] at hr
      simp only [mapStr, Heuristic.collectPromiseFunctions, hr, collectFns_mapStr f b]
  | .funcExpr a ty b => by
      intro ctx R
      have hr := register_mapStr f ctx (.funcExpr a ty b) R
      simp only [mapStr] at hr
      simp only [mapStr, Heuristic.collectPromiseFunctions, hr, collectFns_mapStr f b]
  | .ident _ => by intro ctx R; rfl
  | .strLit _ => by intro ctx R; rfl
  | .numLit _ => by intro ctx R; rfl
  | .propAccess o _ => by
      intro ctx R
      simp only [mapStr, Heuristic.collectPromiseFunctions, collectFns_mapStr f o]
  | .call c as => by
      intro ctx R
      simp only [mapStr, Heuristic.collectPromiseFunctions, collectFns_mapStr f c,
        collectFnsL_mapStr f as]
  | .newExpr c as => by
      intro ctx R
      simp only [mapStr, Heuristic.collectPromiseFunctions, collectFns_mapStr f c,
        collectFnsL_mapStr f as]
  | .awaitExpr e => by
      intro ctx R
      simp only [mapStr, Heuristic.collectPromiseFunctions, collectFns_mapStr f e]
  | .assign l r => by
      intro ctx R
      simp only [mapStr, Heuristic.collectPromiseFunctions, collectFns_mapStr f l,
        collectFns_mapStr f r]
  | .returnStmt (some e) => by
      intro ctx R
      simp only [mapStr, Heuristic.collectPromiseFunctions, collectFns_mapStr f e]
  | .returnStmt none => by intro ctx R; rfl
  | .exprStmt e => by
      intro ctx R
      simp only [mapStr, Heuristic.collectPromiseFunctions, collectFns_mapStr f e]
  | .block ss => by
      intro ctx R
      simp only [mapStr, Heuristic.collectPromiseFunctions, collectFnsL_mapStr f ss]
  | .varDecl nm i? => by
      intro ctx R
      cases i? with
      | none =>
          simp only [mapStr_varDecl, Heuristic.collectPromiseFunctions,
            varDeclCtxName_mapStr, collectFns_mapStr f nm]
      | some i =>
          simp only [mapStr_varDecl, Heuristic.collectPromiseFunctions,
            varDeclCtxName_mapStr, collectFns_mapStr f nm, collectFns_mapStr f i]
  | .bindingPattern _ es => by
      intro ctx R
      simp only [mapStr, Heuristic.collectPromiseFunctions, collectFnsL_mapStr f es]
  | .classDecl nm? ms => by
      intro ctx R
      simp only [mapStr, Heuristic.collectPromiseFunctions, collectFnsL_mapStr f ms]
  | .objectLit ps => by
      intro ctx R
      simp only [mapStr, Heuristic.collectPromiseFunctions, collectFnsL_mapStr f ps]
  | .shorthandProp _ => by intro ctx R; rfl
  | .propAssign _ i => by
      intro ctx R
      simp only [mapStr, Heuristic.collectPromiseFunctions, collectFns_mapStr f i]

theorem collectFnsL_mapStr (f : String → String) :
    (ns : List Node) → ∀ (ctx : Heuristic.CollectCtx) (R : Registries),
      Heuristic.collectPromiseFunctionsL ctx (mapStrL f ns) R
        = Heuristic.collectPromiseFunctionsL ctx ns R
  | [] => by intro ctx R; rfl
  | n :: ns => by
      intro ctx R
      simp only [mapStrL, Heuristic.collectPromiseFunctionsL, collectFns_mapStr f n,
        collectFnsL_mapStr f ns]
end

theorem instBindOf_mapStr (f : String → String) (n : Node) :
    instBindOf (mapStr f n) = instBindOf n := by
  cases n <;> try simp [mapStr, instBindOf]
  case varDecl nm i? =>
    cases i? with
    | none => cases nm <;> simp [mapStr, instBindOf]
    | some i =>
        cases nm <;> cases i <;> try simp [mapStr, instBindOf]
        all_goals (rename_i c as; cases c <;> simp [mapStr, instBindOf])

mutual
theorem instBindings_mapStr (f : String → String) :
    (n : Node) → instBindings (mapStr f n) = instBindings n
  | .varDecl nm i? => by
      cases i? with
      | none =>
          have h := instBindOf_mapStr f (.varDecl nm none)
          simp only [mapStr] at h
          simp only [mapStr_varDecl, instBindings, h, instBindings_mapStr f nm]
      | some i =>
          have h := instBindOf_mapStr f (.varDecl nm (some i))
          simp only [mapStr] at h
          simp only [mapStr_varDecl, instBindings, h, instBindings_mapStr f nm,
            instBindings_mapStr f i]
  | .ident _ => by rfl
  | .strLit _ => by rfl
  | .numLit _ => by rfl
  | .propAccess o _ => by
      simp only [mapStr, instBindings, instBindings_mapStr f o]
  | .call c as => by
      simp only [mapStr, instBindings, instBindings_mapStr f c, instBindingsL_mapStr f as]
  | .newExpr c as => by
      simp only [mapStr, instBindings, instBindings_mapStr f c, instBindingsL_mapStr f as]
  | .awaitExpr e => by
      simp only [mapStr, instBindings, instBindings_mapStr f e]
  | .assign l r => by
      simp only [mapStr, instBindings, instBindings_mapStr f l, instBindings_mapStr f r]
  | .returnStmt (some e) => by
      simp only [mapStr, instBindings, instBindings_mapStr f e]
  | .returnStmt none => by rfl
  | .exprStmt e => by
      simp only [mapStr, instBindings, instBindings_mapStr f e]
  | .block ss => by
      simp only [mapStr, instBindings, instBindingsL_mapStr f ss]
  | .bindingPattern _ es => by
      simp only [mapStr, instBindings, instBindingsL_mapStr f es]
  | .funcDecl _ _ _ (some b) => by
      simp only [mapStr, instBindings, instBindings_mapStr f b]
  | .funcDecl _ _ _ none => by rfl
  | .funcExpr _ _ b => by
      simp only [mapStr, instBindings, instBindings_mapStr f b]
  | .arrowFunc _ _ b => by
      simp only [mapStr, instBindings, instBindings_mapStr f b]
  | .methodDecl _ _ _ (some b) => by
      simp only [mapStr, instBindings, instBindings_mapStr f b]
  | .methodDecl _ _ _ none => by rfl
  | .classDecl _ ms => by
      simp only [mapStr, instBindings, instBindingsL_mapStr f ms]
  | .objectLit ps => by
      simp only [mapStr, instBindings, instBindingsL_mapStr f ps]
  | .shorthandProp _ => by rfl
  | .propAssign _ i => by
      simp only [mapStr, instBindings, instBindings_mapStr f i]

theorem instBindingsL_mapStr (f : String → String) :
    (ns : List Node) → instBindingsL (mapStrL f ns) = instBindingsL ns
  | [] => by rfl
  | n :: ns => by
      simp only [mapStrL, instBindingsL, instBindings_mapStr f n, instBindingsL_mapStr f ns]
end

theorem collectInst_mapStr (f : String → String) (n : Node) (R : Registries) :
    Heuristic.collectInstanceVariables (mapStr f n) R
      = Heuristic.collectInstanceVariables n R := by
  rw [collectInst_spec, collectInst_spec, instBindings_mapStr]

theorem promiseMethodsOfProps_mapStr (f : String → String) (R : Registries) :
    (ps : List Node) →
      Heuristic.promiseMethodsOfProps R (mapStrL f ps)
        = Heuristic.promiseMethodsOfProps R ps
  | [] => by rfl
  | p :: ps => by
      have hrest := promiseMethodsOfProps_mapStr f R ps
      cases p <;> try simp [mapStrL, mapStr, Heuristic.promiseMethodsOfProps, hrest]
      case methodDecl nm a ty b? =>
        cases b? with
        | none => simp [mapStrL, mapStr, Heuristic.promiseMethodsOfProps, hrest]
        | some b =>
            simp [mapStrL, mapStr, Heuristic.promiseMethodsOfProps, hrest,
              isFn_mapStr_methodDeclSome]
      case propAssign nm i =>
        cases i <;> simp [mapStrL, mapStr, Heuristic.promiseMethodsOfProps, hrest]

theorem bindObjLit_mapStr (f : String → String) (n : Node) (R : Registries) :
    Heuristic.bindObjectLiteral (mapStr f n) R = Heuristic.bindObjectLiteral n R := by
  cases n <;> try simp [mapStr, Heuristic.bindObjectLiteral]
  case varDecl nm i? =>
    cases i? with
    | none => cases nm <;> simp [mapStr, Heuristic.bindObjectLiteral]
    | some i =>
        cases nm <;> cases i <;>
          simp [mapStr, Heuristic.bindObjectLiteral, promiseMethodsOfProps_mapStr]

mutual
theorem collectObjs_mapStr (f : String → String) :
    (n : Node) → ∀ R : Registries,
      Heuristic.collectObjectLiterals (mapStr f n) R
        = Heuristic.collectObjectLiterals n R
  | .ident _ => by intro R; rfl
  | .strLit _ => by intro R; rfl
  | .numLit _ => by intro R; rfl
  | .propAccess o _ => by
      intro R
      simp only [mapStr, Heuristic.collectObjectLiterals, collectObjs_mapStr f o]
  | .call c as => by
      intro R
      simp only [mapStr, Heuristic.collectObjectLiterals, collectObjs_mapStr f c,
        collectObjsL_mapStr f as]
  | .newExpr c as => by
      intro R
      simp only [mapStr, Heuristic.collectObjectLiterals, collectObjs_mapStr f c,
        collectObjsL_mapStr f as]
  | .awaitExpr e => by
      intro R
      simp only [mapStr, Heuristic.collectObjectLiterals, collectObjs_mapStr f e]
  | .assign l r => by
      intro R
      simp only [mapStr, Heuristic.collectObjectLiterals, collectObjs_mapStr f l,
        collectObjs_mapStr f r]
  | .returnStmt (some e) => by
      intro R
      simp only [mapStr, Heuristic.collectObjectLiterals, collectObjs_mapStr f e]
  | .returnStmt none => by intro R; rfl
  | .exprStmt e => by
      intro R
      simp only [mapStr, Heuristic.collectObjectLiterals, collectObjs_mapStr f e]
  | .block ss => by
      intro R
      simp only [mapStr, Heuristic.collectObjectLiterals, collectObjsL_mapStr f ss]
  | .varDecl nm i? => by
      intro R
      cases i? with
      | none =>
          have hb := bindObjLit_mapStr f (.varDecl nm none) R
          simp only [mapStr] at hb
          simp only [mapStr_varDecl, Heuristic.collectObjectLiterals, hb,
            collectObjs_mapStr f nm]
      | some i =>
          have hb := bindObjLit_mapStr f (.varDecl nm (some i)) R
          simp only [mapStr] at hb
          simp only [mapStr_varDecl, Heuristic.collectObjectLiterals, hb,
            collectObjs_mapStr f nm, collectObjs_mapStr f i]
  | .bindingPattern _ es => by
      intro R
      simp only [mapStr, Heuristic.collectObjectLiterals, collectObjsL_mapStr f es]
  | .funcDecl _ _ _ (some b) => by
      intro R
      simp only [mapStr, Heuristic.collectObjectLiterals, collectObjs_mapStr f b]
  | .funcDecl _ _ _ none => by intro R; rfl
  | .funcExpr _ _ b => by
      intro R
      simp only [mapStr, Heuristic.collectObjectLiterals, collectObjs_mapStr f b]
  | .arrowFunc _ _ b => by
      intro R
      simp only [mapStr, Heuristic.collectObjectLiterals, collectObjs_mapStr f b]
  | .methodDecl _ _ _ (some b) => by
      intro R
      simp only [mapStr, Heuristic.collectObjectLiterals, collectObjs_mapStr f b]
  | .methodDecl _ _ _ none => by intro R; rfl
  | .classDecl _ ms => by
      intro R
      simp only [mapStr, Heuristic.collectObjectLiterals, collectObjsL_mapStr f ms]
  | .objectLit ps => by
      intro R
      simp only [mapStr, Heuristic.collectObjectLiterals, collectObjsL_mapStr f ps]
  | .shorthandProp _ => by intro R; rfl
  | .propAssign _ i => by
      intro R
      simp only [mapStr, Heuristic.collectObjectLiterals, collectObjs_mapStr f i]

theorem collectObjsL_mapStr (f : String → String) :
    (ns : List Node) → ∀ R : Registries,
      Heuristic.collectObjectLiteralsL (mapStrL f ns) R
        = Heuristic.collectObjectLiteralsL ns R
  | [] => by intro R; rfl
  | n :: ns => by
      intro R
      simp only [mapStrL, Heuristic.collectObjectLiteralsL, collectObjs_mapStr f n,
        collectObjsL_mapStr f ns]
end

mutual
theorem visit_mapStr (f : String → String) :
    (n : Node) → ∀ (R : Registries) (pv : Option Node),
      Heuristic.visit R (Option.map (mapStr f) pv) (mapStr f n)
        = Heuristic.visit R pv n
  | .funcDecl nm? a ty b? => by
      intro R pv
      cases b? with
      | none => rfl
      | some b =>
          have hb := visit_mapStr f b R none
          simp only [Option.map] at hb
          simp only [mapStr, Heuristic.visit, isFn_mapStr_funcDeclSome, hb]
  | .methodDecl nm a ty b? => by
      intro R pv
      cases b? with
      | none => rfl
      | some b =>
          have hb := visit_mapStr f b R none
          simp only [Option.map] at hb
          simp only [mapStr, Heuristic.visit, isFn_mapStr_methodDeclSome, hb]
  | .arrowFunc a ty b => by
      intro R pv
      have hb := visit_mapStr f b R none
      simp only [Option.map] at hb
      cases pv <;>
        simp only [Option.map, mapStr, Heuristic.visit, isFn_mapStr_arrow, hb,
          getNodeKey_mapStr]
  | .funcExpr a ty b => by
      intro R pv
      have hb := visit_mapStr f b R none
      simp only [Option.map] at hb
      cases pv <;>
        simp only [Option.map, mapStr, Heuristic.visit, isFn_mapStr_funcExpr, hb,
          getNodeKey_mapStr]
  | .call c as => by
      intro R pv
      have hc := visit_mapStr f c R none
      have has := visitL_mapStr f as R none
      simp only [Option.map] at hc has
      simp only [mapStr, Heuristic.visit, isKnown_mapStr, callCandidateKey_mapStr, hc, has]
  | .ident _ => by intro R pv; rfl
  | .strLit _ => by intro R pv; rfl
  | .numLit _ => by intro R pv; rfl
  | .propAccess o _ => by
      intro R pv
      have h := visit_mapStr f o R none
      simp only [Option.map] at h
      simp only [mapStr, Heuristic.visit, h]
  | .newExpr c as => by
      intro R pv
      have hc := visit_mapStr f c R none
      have has := visitL_mapStr f as R none
      simp only [Option.map] at hc has
      simp only [mapStr, Heuristic.visit, hc, has]
  | .awaitExpr e => by
      intro R pv
      have h := visit_mapStr f e R none
      simp only [Option.map] at h
      simp only [mapStr, Heuristic.visit, h]
  | .assign l r => by
      intro R pv
      have hl := visit_mapStr f l R none
      have hr := visit_mapStr f r R none
      simp only [Option.map] at hl hr
      simp only [mapStr, Heuristic.visit, hl, hr]
  | .returnStmt (some e) => by
      intro R pv
      have h := visit_mapStr f e R none
      simp only [Option.map] at h
      simp only [mapStr, Heuristic.visit, h]
  | .returnStmt none => by intro R pv; rfl
  | .exprStmt e => by
      intro R pv
      have h := visit_mapStr f e R none
      simp only [Option.map] at h
      simp only [mapStr, Heuristic.visit, h]
  | .block ss => by
      intro R pv
      have h := visitL_mapStr f ss R none
      simp only [Option.map] at h
      simp only [mapStr, Heuristic.visit, h]
  | .varDecl nm i? => by
      intro R pv
      cases i? with
      | none =>
          have h1 := visit_mapStr f nm R (some nm)
          simp only [Option.map] at h1
          simp only [mapStr_varDecl, Heuristic.visit, h1]
      | some i =>
          have h1 := visit_mapStr f nm R (some nm)
          have h2 := visit_mapStr f i R (some nm)
          simp only [Option.map] at h1 h2
          simp only [mapStr_varDecl, Heuristic.visit, h1, h2]
  | .bindingPattern _ es => by
      intro R pv
      have h := visitL_mapStr f es R none
      simp only [Option.map] at h
      simp only [mapStr, Heuristic.visit, h]
  | .classDecl _ ms => by
      intro R pv
      have h := visitL_mapStr f ms R none
      simp only [Option.map] at h
      simp only [mapStr, Heuristic.visit, h]
  | .objectLit ps => by
      intro R pv
      have h := visitL_mapStr f ps R none
      simp only [Option.map] at h
      simp only [mapStr, Heuristic.visit, h]
  | .shorthandProp _ => by intro R pv; rfl
  | .propAssign _ i => by
      intro R pv
      have h := visit_mapStr f i R none
      simp only [Option.map] at h
      simp only [mapStr, Heuristic.visit, h]

theorem visitL_mapStr (f : String → String) :
    (ns : List Node) → ∀ (R : Registries) (pv : Option Node),
      Heuristic.visitL R (Option.map (mapStr f) pv) (mapStrL f ns)
        = Heuristic.visitL R pv ns
  | [] => by intro R pv; rfl
  | n :: ns => by
      intro R pv
      simp only [mapStrL, Heuristic.visitL, visit_mapStr f n R pv, visitL_mapStr f ns R pv]
end

theorem buildRegistries_mapStr (f : String → String) (t : Node) :
    Heuristic.buildRegistries (mapStr f t) = Heuristic.buildRegistries t := by
  simp only [Heuristic.buildRegistries, collectFns_mapStr f t, collectInst_mapStr f t,
    collectObjs_mapStr f t]

theorem provide_mapStr (f : String → String) (t : Node) :
    Heuristic.provide (mapStr f t) = Heuristic.provide t := by
  have h := visit_mapStr f t (Heuristic.buildRegistries t) none
  simp only [Option.map] at h
  simp only [Heuristic.provide, buildRegistries_mapStr, h]

mutual
/-- A `return` statement exists in the region the body-scan searches
(same traversal as `scanReturns`, with the same barriers, but any return
at all counts). -/
def hasReturnInScan : Node → Bool
  | .returnStmt (some _) => true
  | .returnStmt none => false
  | .funcDecl _ _ _ _ => false
  | .arrowFunc _ _ _ => false
  | .funcExpr _ _ _ => false
  | .ident _ => false
  | .strLit _ => false
  | .numLit _ => false
  | .propAccess o _ => hasReturnInScan o
  | .call c as => hasReturnInScan c || hasReturnInScanL as
  | .newExpr c as => hasReturnInScan c || hasReturnInScanL as
  | .awaitExpr e => hasReturnInScan e
  | .assign l r => hasReturnInScan l || hasReturnInScan r
  | .exprStmt e => hasReturnInScan e
  | .block ss => hasReturnInScanL ss
  | .varDecl nm i? =>
      hasReturnInScan nm || (match i? with | some i => hasReturnInScan i | none => false)
  | .bindingPattern _ es => hasReturnInScanL es
  | .methodDecl _ _ _ (some b) => hasReturnInScan b
  | .methodDecl _ _ _ none => false
  | .classDecl _ ms => hasReturnInScanL ms
  | .objectLit ps => hasReturnInScanL ps
  | .shorthandProp _ => false
  | .propAssign _ i => hasReturnInScan i

def hasReturnInScanL : List Node → Bool
  | [] => false
  | n :: ns => hasReturnInScan n || hasReturnInScanL ns
end

mutual
/-- The body-scan can only succeed where a `return` statement exists in
its search region. -/
theorem scan_le_hasReturn (R : Registries) :
    (n : Node) → Heuristic.scanReturns R n = true → hasReturnInScan n = true
  | .returnStmt (some e) => by intro h; rfl
  | .returnStmt none => by intro h; simpa [Heuristic.scanReturns] using h
  | .funcDecl _ _ _ _ => by intro h; simpa [Heuristic.scanReturns] using h
  | .arrowFunc _ _ _ => by intro h; simpa [Heuristic.scanReturns] using h
  | .funcExpr _ _ _ => by intro h; simpa [Heuristic.scanReturns] using h
  | .ident _ => by intro h; simpa [Heuristic.scanReturns] using h
  | .strLit _ => by intro h; simpa [Heuristic.scanReturns] using h
  | .numLit _ => by intro h; simpa [Heuristic.scanReturns] using h
  | .propAccess o _ => by
      intro h
      simp only [Heuristic.scanReturns] at h
      simpa [hasReturnInScan] using scan_le_hasReturn R o h
  | .call c as => by
      intro h
      simp only [Heuristic.scanReturns, Bool.or_eq_true] at h
      simp only [hasReturnInScan, Bool.or_eq_true]
      exact h.imp (scan_le_hasReturn R c) (scanL_le_hasReturn R as)
  | .newExpr c as => by
      intro h
      simp only [Heuristic.scanReturns, Bool.or_eq_true] at h
      simp only [hasReturnInScan, Bool.or_eq_true]
      exact h.imp (scan_le_hasReturn R c) (scanL_le_hasReturn R as)
  | .awaitExpr e => by
      intro h
      simp only [Heuristic.scanReturns] at h
      simpa [hasReturnInScan] using scan_le_hasReturn R e h
  | .assign l r => by
      intro h
      simp only [Heuristic.scanReturns, Bool.or_eq_true] at h
      simp only [hasReturnInScan, Bool.or_eq_true]
      exact h.imp (scan_le_hasReturn R l) (scan_le_hasReturn R r)
  | .exprStmt e => by
      intro h
      simp only [Heuristic.scanReturns] at h
      simpa [hasReturnInScan] using scan_le_hasReturn R e h
  | .block ss => by
      intro h
      simp only [Heuristic.scanReturns] at h
      simpa [hasReturnInScan] using scanL_le_hasReturn R ss h
  | .varDecl nm i? => by
      intro h
      cases i? with
      | none =>
          simp only [Heuristic.scanReturns, Bool.or_eq_true] at h
          simp only [hasReturnInScan, Bool.or_eq_true]
          rcases h with h | h
          · exact Or.inl (scan_le_hasReturn R nm h)
          · simp at h
      | some i =>
          simp only [Heuristic.scanReturns, Bool.or_eq_true] at h
          simp only [hasReturnInScan, Bool.or_eq_true]
          rcases h with h | h
          · exact Or.inl (scan_le_hasReturn R nm h)
          · exact Or.inr (scan_le_hasReturn R i h)
  | .bindingPattern _ es => by
      intro h
      simp only [Heuristic.scanReturns] at h
      simpa [hasReturnInScan] using scanL_le_hasReturn R es h
  | .methodDecl _ _ _ (some b) => by
      intro h
      simp only [Heuristic.scanReturns] at h
      simpa [hasReturnInScan] using scan_le_hasReturn R b h
  | .methodDecl _ _ _ none => by intro h; simpa [Heuristic.scanReturns] using h
  | .classDecl _ ms => by
      intro h
      simp only [Heuristic.scanReturns] at h
      simpa [hasReturnInScan] using scanL_le_hasReturn R ms h
  | .objectLit ps => by
      intro h
      simp only [Heuristic.scanReturns] at h
      simpa [hasReturnInScan] using scanL_le_hasReturn R ps h
  | .shorthandProp _ => by intro h; simpa [Heuristic.scanReturns] using h
  | .propAssign _ i => by
      intro h
      simp only [Heuristic.scanReturns] at h
      simpa [hasReturnInScan] using scan_le_hasReturn R i h

theorem scanL_le_hasReturn (R : Registries) :
    (ns : List Node) → Heuristic.scanReturnsL R ns = true → hasReturnInScanL ns = true
  | [] => by intro h; simpa [Heuristic.scanReturnsL] using h
  | n :: ns => by
      intro h
      simp only [Heuristic.scanReturnsL, Bool.or_eq_true] at h
      simp only [hasReturnInScanL, Bool.or_eq_true]
      exact h.imp (scan_le_hasReturn R n) (scanL_le_hasReturn R ns)
end

/-! ## Claim C7 -/

/-- **C7.** Heuristic classification is purely structural.
(1) The whole heuristic pipeline — registries and reported spans — is
invariant under arbitrary rewriting of every string literal's text, so
promise-related vocabulary inside string literals can never produce (or
remove) a positive result; comments do not appear in the syntax tree at
all.  (2) The body-scan succeeds only where a `return` statement exists
in its search region, so a function that constructs a promise value
without returning it (no return in scope, or only returns the scan
rejects) is classified negative: concretely,
`function p(){ new Promise(); return 1 }` is negative.  (3) The spec
scenario `const s = "then"; console.log(s)` reports no spans. -/
theorem C7_purely_structural :
    (∀ (f : String → String) (t : Node),
        Heuristic.buildRegistries (mapStr f t) = Heuristic.buildRegistries t
          ∧ Heuristic.provide (mapStr f t) = Heuristic.provide t)
      ∧ (∀ (R : Registries) (n : Node),
          hasReturnInScan n = false → Heuristic.scanReturns R n = false)
      ∧ Heuristic.isFunctionReturningPromise Registries.empty
          (.funcDecl (some ⟨0, "p"⟩) false none
            (some (.block
              [.exprStmt (.newExpr (.ident ⟨1, "Promise"⟩) []),
               .returnStmt (some (.numLit 1))]))) = false
      ∧ Heuristic.provide (.block
          [.varDecl (.ident ⟨1, "s"⟩) (some (.strLit "then")),
           .exprStmt (.call (.propAccess (.ident ⟨2, "console"⟩) ⟨3, "log"⟩)
             [.ident ⟨4, "s"⟩])]) = [] := by
  refine ⟨fun f t => ⟨buildRegistries_mapStr f t, provide_mapStr f t⟩,
    fun R n h => ?_, by decide, by decide⟩
  cases hs : Heuristic.scanReturns R n with
  | false => rfl
  | true => exact absurd (scan_le_hasReturn R n hs) (by simp [h])

/-- Witness for C7: the no-return implication applied to a concrete body
that builds a promise without returning it. -/
theorem C7_witness :
    Heuristic.scanReturns Registries.empty
      (.block [.exprStmt (.newExpr (.ident ⟨1, "Promise"⟩) [])]) = false :=
  C7_purely_structural.2.1 Registries.empty
    (.block [.exprStmt (.newExpr (.ident ⟨1, "Promise"⟩) [])]) (by decide)

/-! ## Per-node decomposition of the semantic walk (C8) -/

/-- The contribution of a single node to the semantic walk's output: the
pushed identifier span of this node if its classification is positive,
nothing otherwise.  `pv` is the parent-variable-declaration name context,
exactly as in `Tsc.visit`. -/
def classifyTscAt (C : Tsc.Checker) (pv : Option Node) (n : Node) : List Nat :=
  match n with
  | .funcDecl nm? a ty b? =>
      if Tsc.isFunctionReturningPromise C (.funcDecl nm? a ty b?) then
        match nm? with
        | some nm => [nm.key]
        | none => []
      else []
  | .methodDecl nm a ty b? =>
      if Tsc.isFunctionReturningPromise C (.methodDecl nm a ty b?) then [nm.key] else []
  | .arrowFunc a ty b =>
      if Tsc.isFunctionReturningPromise C (.arrowFunc a ty b) then
        match pv with
        | some nm => (getNodeKey nm).toList
        | none => []
      else []
  | .funcExpr a ty b =>
      if Tsc.isFunctionReturningPromise C (.funcExpr a ty b) then
        match pv with
        | some nm => (getNodeKey nm).toList
        | none => []
      else []
  | .call c as =>
      if Tsc.isPromiseReturningCall C (.call c as) then Heuristic.callCandidateKey c else []
  | _ => []

mutual
/-- The preorder list of `(parent-variable context, node)` pairs the
semantic walk visits. -/
def subnodesCtx (pv : Option Node) (n : Node) : List (Option Node × Node) :=
  (pv, n) ::
    (match n with
     | .funcDecl _ _ _ (some b) => subnodesCtx none b
     | .funcDecl _ _ _ none => []
     | .methodDecl _ _ _ (some b) => subnodesCtx none b
     | .methodDecl _ _ _ none => []
     | .arrowFunc _ _ b => subnodesCtx none b
     | .funcExpr _ _ b => subnodesCtx none b
     | .call c as => subnodesCtx none c ++ subnodesCtxL none as
     | .ident _ => []
     | .strLit _ => []
     | .numLit _ => []
     | .propAccess o _ => subnodesCtx none o
     | .newExpr c as => subnodesCtx none c ++ subnodesCtxL none as
     | .awaitExpr e => subnodesCtx none e
     | .assign l r => subnodesCtx none l ++ subnodesCtx none r
     | .returnStmt (some e) => subnodesCtx none e
     | .returnStmt none => []
     | .exprStmt e => subnodesCtx none e
     | .block ss => subnodesCtxL none ss
     | .varDecl nm i? =>
         subnodesCtx (some nm) nm
           ++ (match i? with | some i => subnodesCtx (some nm) i | none => [])
     | .bindingPattern _ es => subnodesCtxL none es
     | .classDecl _ ms => subnodesCtxL none ms
     | .objectLit ps => subnodesCtxL none ps
     | .shorthandProp _ => []
     | .propAssign _ i => subnodesCtx none i)

def subnodesCtxL (pv : Option Node) (ns : List Node) : List (Option Node × Node) :=
  match ns with
  | [] => []
  | n :: rest => subnodesCtx pv n ++ subnodesCtxL pv rest
end

mutual
/-- The semantic walk is exactly the concatenation of the independent
per-node contributions, in preorder: each node's classification is
computed and reported locally, so the verdict at one node cannot abort or
alter the reporting of any other node. -/
theorem tscVisit_flatMap (C : Tsc.Checker) :
    (n : Node) → ∀ pv : Option Node,
      Tsc.visit C pv n
        = (subnodesCtx pv n).flatMap (fun p => classifyTscAt C p.1 p.2)
  | .funcDecl nm? a ty b? => by
      intro pv
      cases b? with
      | none => simp [Tsc.visit, subnodesCtx, classifyTscAt]
      | some b =>
          simp only [Tsc.visit, subnodesCtx, classifyTscAt, List.flatMap_cons,
            tscVisit_flatMap C b]
  | .methodDecl nm a ty b? => by
      intro pv
      cases b? with
      | none => simp [Tsc.visit, subnodesCtx, classifyTscAt]
      | some b =>
          simp only [Tsc.visit, subnodesCtx, classifyTscAt, List.flatMap_cons,
            tscVisit_flatMap C b]
  | .arrowFunc a ty b => by
      intro pv
      simp only [Tsc.visit, subnodesCtx, classifyTscAt, List.flatMap_cons,
        tscVisit_flatMap C b]
  | .funcExpr a ty b => by
      intro pv
      simp only [Tsc.visit, subnodesCtx, classifyTscAt, List.flatMap_cons,
        tscVisit_flatMap C b]
  | .call c as => by
      intro pv
      simp only [Tsc.visit, subnodesCtx, classifyTscAt, List.flatMap_cons,
        List.flatMap_append, tscVisit_flatMap C c, tscVisitL_flatMap C as,
        List.append_assoc]
  | .ident _ => by intro pv; simp [Tsc.visit, subnodesCtx, classifyTscAt]
  | .strLit _ => by intro pv; simp [Tsc.visit, subnodesCtx, classifyTscAt]
  | .numLit _ => by intro pv; simp [Tsc.visit, subnodesCtx, classifyTscAt]
  | .propAccess o _ => by
      intro pv
      simp only [Tsc.visit, subnodesCtx, classifyTscAt, List.flatMap_cons,
        tscVisit_flatMap C o]
      simp
  | .newExpr c as => by
      intro pv
      simp only [Tsc.visit, subnodesCtx, classifyTscAt, List.flatMap_cons,
        List.flatMap_append, tscVisit_flatMap C c, tscVisitL_flatMap C as]
      simp
  | .awaitExpr e => by
      intro pv
      simp only [Tsc.visit, subnodesCtx, classifyTscAt, List.flatMap_cons,
        tscVisit_flatMap C e]
      simp
  | .assign l r => by
      intro pv
      simp only [Tsc.visit, subnodesCtx, classifyTscAt, List.flatMap_cons,
        List.flatMap_append, tscVisit_flatMap C l, tscVisit_flatMap C r]
      simp
  | .returnStmt (some e) => by
      intro pv
      simp only [Tsc.visit, subnodesCtx, classifyTscAt, List.flatMap_cons,
        tscVisit_flatMap C e]
      simp
  | .returnStmt none => by intro pv; simp [Tsc.visit, subnodesCtx, classifyTscAt]
  | .exprStmt e => by
      intro pv
      simp only [Tsc.visit, subnodesCtx, classifyTscAt, List.flatMap_cons,
        tscVisit_flatMap C e]
      simp
  | .block ss => by
      intro pv
      simp only [Tsc.visit, subnodesCtx, classifyTscAt, List.flatMap_cons,
        tscVisitL_flatMap C ss]
      simp
  | .varDecl nm i? => by
      intro pv
      cases i? with
      | none =>
          simp only [Tsc.visit, subnodesCtx, classifyTscAt, List.flatMap_cons,
            List.flatMap_append, tscVisit_flatMap C nm]
          simp
      | some i =>
          simp only [Tsc.visit, subnodesCtx, classifyTscAt, List.flatMap_cons,
            List.flatMap_append, tscVisit_flatMap C nm, tscVisit_flatMap C i]
          simp
  | .bindingPattern _ es => by
      intro pv
      simp only [Tsc.visit, subnodesCtx, classifyTscAt, List.flatMap_cons,
        tscVisitL_flatMap C es]
      simp
  | .classDecl _ ms => by
      intro pv
      simp only [Tsc.visit, subnodesCtx, classifyTscAt, List.flatMap_cons,
        tscVisitL_flatMap C ms]
      simp
  | .objectLit ps => by
      intro pv
      simp only [Tsc.visit, subnodesCtx, classifyTscAt, List.flatMap_cons,
        tscVisitL_flatMap C ps]
      simp
  | .shorthandProp _ => by intro pv; simp [Tsc.visit, subnodesCtx, classifyTscAt]
  | .propAssign _ i => by
      intro pv
      simp only [Tsc.visit, subnodesCtx, classifyTscAt, List.flatMap_cons,
        tscVisit_flatMap C i]
      simp

theorem tscVisitL_flatMap (C : Tsc.Checker) :
    (ns : List Node) → ∀ pv : Option Node,
      Tsc.visitL C pv ns
        = (subnodesCtxL pv ns).flatMap (fun p => classifyTscAt C p.1 p.2)
  | [] => by intro pv; simp [Tsc.visitL, subnodesCtxL]
  | n :: ns => by
      intro pv
      simp only [Tsc.visitL, subnodesCtxL, List.flatMap_append,
        tscVisit_flatMap C n, tscVisitL_flatMap C ns]
end

/-! ## Claim C8 -/

/-- **C8.** In the semantic tier, any failure of a checker call while
classifying one node yields a negative classification for that node only:
(1) the walk's output is the concatenation of independent per-node
contributions (so the verdict at one node cannot abort or change any
other node's report — the traversal continues and still reports every
other node's classification); (2) a thrown resolution during the
function-level inference (`fnInfer = error`, node not `async`) makes the
node negative; (3) likewise for the call-level inference. -/
theorem C8_per_node_failure_absorption :
    (∀ (C : Tsc.Checker) (pv : Option Node) (t : Node),
        Tsc.visit C pv t
          = (subnodesCtx pv t).flatMap (fun p => classifyTscAt C p.1 p.2))
      ∧ (∀ (C : Tsc.Checker) (n : Node),
          isAsyncFn n = false → Tsc.fnInfer C n = .error () →
          Tsc.isFunctionReturningPromise C n = false)
      ∧ (∀ (C : Tsc.Checker) (n : Node),
          Tsc.callInfer C n = .error () →
          Tsc.isPromiseReturningCall C n = false) := by
  refine ⟨fun C pv t => tscVisit_flatMap C t pv, fun C n ha he => ?_, fun C n he => ?_⟩
  · simp [Tsc.isFunctionReturningPromise, ha, he]
  · simp [Tsc.isPromiseReturningCall, he]

/-- Witness for C8: a checker whose every call throws classifies a
non-async function declaration and a call expression negative. -/
theorem C8_witness :
    Tsc.isFunctionReturningPromise
        ⟨fun _ => .error (), fun _ => .error (), fun _ => .error ()⟩
        (.funcDecl (some ⟨0, "f"⟩) false none (some (.block []))) = false
      ∧ Tsc.isPromiseReturningCall
          ⟨fun _ => .error (), fun _ => .error (), fun _ => .error ()⟩
          (.call (.ident ⟨1, "g"⟩) []) = false :=
  ⟨C8_per_node_failure_absorption.2.1 _ _ rfl rfl,
   C8_per_node_failure_absorption.2.2 _ _ rfl⟩

/-! ## Registry threading through the checker-backed provider (C5) -/

theorem alookup_aset {α : Type} (k : String) (v : α) (l : AList α) (k' : String) :
    alookup (aset k v l) k' = if k == k' then some v else alookup l k' := by
  simp only [alookup, aset, List.find?]
  cases h : (k == k') <;> simp [h]

/-- `R'` extends `R` by at most adding new ObjectLiteralMap entries: the
other three registries are unchanged and every existing ObjectLiteralMap
entry still looks up to the same value. -/
def RegExtends (R R' : Registries) : Prop :=
  R'.fns = R.fns ∧ R'.methods = R.methods ∧ R'.inst = R.inst
    ∧ ∀ o ms, alookup R.objs o = some ms → alookup R'.objs o = some ms

theorem RegExtends.rfl (R : Registries) : RegExtends R R :=
  ⟨Eq.refl _, Eq.refl _, Eq.refl _, fun _ _ h => h⟩

theorem RegExtends.trans {R1 R2 R3 : Registries}
    (h12 : RegExtends R1 R2) (h23 : RegExtends R2 R3) : RegExtends R1 R3 :=
  ⟨h23.1.trans h12.1, h23.2.1.trans h12.2.1, h23.2.2.1.trans h12.2.2.1,
   fun o ms h => h23.2.2.2 o ms (h12.2.2.2 o ms h)⟩

/-- The stateful call classifier only ever adds an ObjectLiteralMap entry,
and only for a receiver that had none (the `!objectMethods` guard). -/
theorem isPromiseReturningCallS_extends (C? : Option SemanticP.Checker)
    (R : Registries) (n : Node) :
    RegExtends R (SemanticP.isPromiseReturningCall C? R n).2 := by
  unfold SemanticP.isPromiseReturningCall
  dsimp only
  repeat' split
  all_goals try exact RegExtends.rfl R
  refine ⟨Eq.refl _, Eq.refl _, Eq.refl _, fun o' ms h => ?_⟩
  rw [alookup_aset]
  split
  · next hbeq =>
      rw [← eq_of_beq hbeq] at h
      simp_all
  · exact h

mutual
/-- The emission pass of the checker-backed provider only extends the
registries: every step threads the state through `isPromiseReturningCall`,
whose only write is the ObjectLiteralMap cache insertion. -/
theorem visitS_extends (C? : Option SemanticP.Checker) :
    ∀ (pv : Option Node) (n : Node) (R : Registries),
      RegExtends R (SemanticP.visit C? pv n R).2
  | pv, .funcDecl nm? a ty b?, R => by
      cases b? with
      | none => exact RegExtends.rfl R
      | some b => exact visitS_extends C? none b R
  | pv, .methodDecl nm a ty b?, R => by
      cases b? with
      | none => exact RegExtends.rfl R
      | some b => exact visitS_extends C? none b R
  | pv, .arrowFunc a ty b, R => visitS_extends C? none b R
  | pv, .funcExpr a ty b, R => visitS_extends C? none b R
  | pv, .call c as, R => by
      exact RegExtends.trans (isPromiseReturningCallS_extends C? R (.call c as))
        (RegExtends.trans
          (visitS_extends C? none c (SemanticP.isPromiseReturningCall C? R (.call c as)).2)
          (visitSL_extends C? none as
            (SemanticP.visit C? none c
              (SemanticP.isPromiseReturningCall C? R (.call c as)).2).2))
  | _, .ident _, R => RegExtends.rfl R
  | _, .strLit _, R => RegExtends.rfl R
  | _, .numLit _, R => RegExtends.rfl R
  | _, .propAccess o _, R => visitS_extends C? none o R
  | _, .newExpr c as, R => by
      exact RegExtends.trans (visitS_extends C? none c R)
        (visitSL_extends C? none as (SemanticP.visit C? none c R).2)
  | _, .awaitExpr e, R => visitS_extends C? none e R
  | _, .assign l r, R => by
      exact RegExtends.trans (visitS_extends C? none l R)
        (visitS_extends C? none r (SemanticP.visit C? none l R).2)
  | _, .returnStmt e?, R => by
      cases e? with
      | none => exact RegExtends.rfl R
      | some e => exact visitS_extends C? none e R
  | _, .exprStmt e, R => visitS_extends C? none e R
  | _, .block ss, R => visitSL_extends C? none ss R
  | pv, .varDecl nm i?, R => by
      cases i? with
      | none => exact visitS_extends C? (some nm) nm R
      | some i =>
          exact RegExtends.trans (visitS_extends C? (some nm) nm R)
            (visitS_extends C? (some nm) i (SemanticP.visit C? (some nm) nm R).2)
  | _, .bindingPattern _ es, R => visitSL_extends C? none es R
  | _, .classDecl _ ms, R => visitSL_extends C? none ms R
  | _, .objectLit ps, R => visitSL_extends C? none ps R
  | _, .shorthandProp _, R => RegExtends.rfl R
  | _, .propAssign _ i, R => visitS_extends C? none i R

theorem visitSL_extends (C? : Option SemanticP.Checker) :
    ∀ (pv : Option Node) (ns : List Node) (R : Registries),
      RegExtends R (SemanticP.visitL C? pv ns R).2
  | _, [], R => RegExtends.rfl R
  | pv, n :: rest, R => by
      exact RegExtends.trans (visitS_extends C? pv n R)
        (visitSL_extends C? pv rest (SemanticP.visit C? pv n R).2)
end

/-- The checker of the C5 counterexample: its property-method probe answers
positively for receiver text `v` and method text `m` and throws on the
trailing call-type check. -/
def cC5 : SemanticP.Checker :=
  ⟨fun _ => false, fun o m => .ok (o == "v" && m == "m"), fun _ => .error (),
   fun _ => []⟩

/-- The unit of the C5 counterexample: the single statement `v.m()` with
no declaration of `v` anywhere. -/
def tC5 : Node :=
  .block [.exprStmt (.call (.propAccess (.ident ⟨0, "v"⟩) ⟨1, "m"⟩) [])]

/-- **C5 (counterexample).** A classification step does mutate a registry
after the collection phase has ended: on the unit `v.m()` the collection
phase leaves the ObjectLiteralMap empty, yet classifying the call during
the emission pass writes the checker-discovered entry `v -> [m]` into it
(`objectToPromiseMethods.set` inside `isPromiseReturningCall`), so the
registries at the end of the call differ from the registries at the end of
collection. -/
theorem C5_counterexample :
    (SemanticP.buildRegistries (some cC5) tC5).objs = []
      ∧ (SemanticP.provide (some cC5) tC5).2.objs = [("v", ["m"])]
      ∧ (SemanticP.provide (some cC5) tC5).2 ≠ SemanticP.buildRegistries (some cC5) tC5 := by
  refine ⟨rfl, rfl, ?_⟩
  decide

/-- **C5 (amended).** The collection phase does run to completion before
the emission pass starts (the provider is literally the emission pass
applied to the collected registries), and no classification step ever
touches FunctionRegistry, MethodRegistry or InstanceMap; but the
classification tier is not read-only on the ObjectLiteralMap: it may grow
it, monotonically — every entry present when collection ended still looks
up to the same value for the remainder of the call. -/
theorem C5_amended_registry_lifecycle :
    (∀ (C? : Option SemanticP.Checker) (t : Node),
        SemanticP.provide C? t
          = SemanticP.visit C? none t (SemanticP.buildRegistries C? t))
      ∧ (∀ (C? : Option SemanticP.Checker) (pv : Option Node) (n : Node)
            (R : Registries),
          (SemanticP.visit C? pv n R).2.fns = R.fns
            ∧ (SemanticP.visit C? pv n R).2.methods = R.methods
            ∧ (SemanticP.visit C? pv n R).2.inst = R.inst
            ∧ ∀ o ms, alookup R.objs o = some ms →
                alookup (SemanticP.visit C? pv n R).2.objs o = some ms) :=
  ⟨fun _ _ => rfl, fun C? pv n R => visitS_extends C? pv n R⟩

/-- Witness for C5 (amended): the pipeline equation at a concrete unit, and
preservation of a concrete pre-existing ObjectLiteralMap entry across an
emission step. -/
theorem C5_witness :
    SemanticP.provide none (.block [])
        = SemanticP.visit none none (.block [])
            (SemanticP.buildRegistries none (.block []))
      ∧ alookup (SemanticP.visit none none (.ident ⟨0, "x"⟩)
            ⟨[], [], [], [("o", ["m"])]⟩).2.objs "o" = some ["m"] :=
  ⟨C5_amended_registry_lifecycle.1 none (.block []),
   (C5_amended_registry_lifecycle.2 none none (.ident ⟨0, "x"⟩)
       ⟨[], [], [], [("o", ["m"])]⟩).2.2.2 "o" ["m"] (by decide)⟩

/-! ## Span uniqueness in hybrid mode (C4)

`identKeys` lists every span key present in a unit (identifier spans plus
binding-pattern spans); a real parse gives distinct nodes distinct
`start-end` spans, which is the `Nodup` hypothesis.  `candKeys` lists, per
node, the keys either emission walk may push there; both walks push
sublists of it, and `candKeys` is a subpermutation of the unit's keys. -/

mutual
def identKeys : Node → List Nat
  | .ident i => [i.key]
  | .strLit _ => []
  | .numLit _ => []
  | .propAccess o m => m.key :: identKeys o
  | .call c as => identKeys c ++ identKeysL as
  | .newExpr c as => identKeys c ++ identKeysL as
  | .awaitExpr e => identKeys e
  | .assign l r => identKeys l ++ identKeys r
  | .returnStmt (some e) => identKeys e
  | .returnStmt none => []
  | .exprStmt e => identKeys e
  | .block ss => identKeysL ss
  | .varDecl nm (some i) => identKeys nm ++ identKeys i
  | .varDecl nm none => identKeys nm
  | .bindingPattern k es => k :: identKeysL es
  | .funcDecl (some nm) _ _ (some b) => nm.key :: identKeys b
  | .funcDecl (some nm) _ _ none => [nm.key]
  | .funcDecl none _ _ (some b) => identKeys b
  | .funcDecl none _ _ none => []
  | .funcExpr _ _ b => identKeys b
  | .arrowFunc _ _ b => identKeys b
  | .methodDecl nm _ _ (some b) => nm.key :: identKeys b
  | .methodDecl nm _ _ none => [nm.key]
  | .classDecl (some nm) ms => nm.key :: identKeysL ms
  | .classDecl none ms => identKeysL ms
  | .objectLit ps => identKeysL ps
  | .shorthandProp i => [i.key]
  | .propAssign nm i => nm.key :: identKeys i

def identKeysL : List Node → List Nat
  | [] => []
  | n :: ns => identKeys n ++ identKeysL ns
end

/-- The keys a parent variable-declaration name contributes to its direct
children (`pushToken(node.parent.name)` candidates). -/
def ctxKeys : Option Node → List Nat
  | some nm => (getNodeKey nm).toList
  | none => []

mutual
/-- Per-node upper bound, in push order, on the keys either emission walk
(`visit` / `visitTypeScript`) can push while traversing `n` with parent
context `pv`. -/
def candKeys (pv : Option Node) : Node → List Nat
  | .ident _ => []
  | .strLit _ => []
  | .numLit _ => []
  | .propAccess o _ => candKeys none o
  | .call c as => Heuristic.callCandidateKey c ++ candKeys none c ++ candKeysL as
  | .newExpr c as => candKeys none c ++ candKeysL as
  | .awaitExpr e => candKeys none e
  | .assign l r => candKeys none l ++ candKeys none r
  | .returnStmt (some e) => candKeys none e
  | .returnStmt none => []
  | .exprStmt e => candKeys none e
  | .block ss => candKeysL ss
  | .varDecl nm (some i) => candKeys (some nm) nm ++ candKeys (some nm) i
  | .varDecl nm none => candKeys (some nm) nm
  | .bindingPattern _ es => candKeysL es
  | .funcDecl (some nm) _ _ (some b) => nm.key :: candKeys none b
  | .funcDecl (some nm) _ _ none => [nm.key]
  | .funcDecl none _ _ (some b) => candKeys none b
  | .funcDecl none _ _ none => []
  | .funcExpr _ _ b => ctxKeys pv ++ candKeys none b
  | .arrowFunc _ _ b => ctxKeys pv ++ candKeys none b
  | .methodDecl nm _ _ (some b) => nm.key :: candKeys none b
  | .methodDecl nm _ _ none => [nm.key]
  | .classDecl _ ms => candKeysL ms
  | .objectLit ps => candKeysL ps
  | .shorthandProp _ => []
  | .propAssign _ i => candKeys none i

def candKeysL : List Node → List Nat
  | [] => []
  | n :: ns => candKeys none n ++ candKeysL ns
end

/-- `identKeys` minus the key the node contributes as a variable-declaration
name (`getNodeKey`): its own element keys for a binding pattern, nothing for
an identifier, everything otherwise. -/
def identKeysRest : Node → List Nat
  | .ident _ => []
  | .bindingPattern _ es => identKeysL es
  | n => identKeys n

theorem subperm_pad {α : Type} (p : List α) {x y : List α} (h : x <+~ y) :
    x <+~ p ++ y :=
  h.trans (List.sublist_append_right p y).subperm

theorem subperm_cons_both {α : Type} (a : α) {l₁ l₂ : List α}
    (h : l₁ <+~ l₂) : a :: l₁ <+~ a :: l₂ := by
  obtain ⟨w, pw, sw⟩ := h
  exact ⟨a :: w, pw.cons a, sw.cons₂ a⟩

theorem ite_sublist {c : Prop} [Decidable c] (x : List Nat) :
    (if c then x else []) <+ x := by
  split
  · exact List.Sublist.refl x
  · exact List.nil_sublist x

theorem mem_guard_push {claimed : List Nat} {t : Bool} {key k : Nat}
    (h : k ∈ (if (!claimed.contains key && t) = true then [key] else ([] : List Nat))) :
    claimed.contains k = false := by
  by_cases hc : (!claimed.contains key && t) = true
  · rw [if_pos hc] at h
    rw [List.mem_singleton] at h
    subst h
    simp only [Bool.and_eq_true, Bool.not_eq_true'] at hc
    exact hc.1
  · rw [if_neg hc] at h
    exact absurd h (List.not_mem_nil k)

theorem not_mem_of_contains_false {l : List Nat} {k : Nat}
    (h : l.contains k = false) : k ∉ l := by
  intro hm
  have : l.contains k = true := by simpa using hm
  rw [this] at h
  exact absurd h (by simp)

theorem identKeysRest_perm (nm : Node) :
    identKeysRest nm ++ ctxKeys (some nm) ~ identKeys nm := by
  cases nm <;>
    first
      | simp [identKeysRest, ctxKeys, getNodeKey, identKeys]
      | (simp only [identKeysRest, ctxKeys, getNodeKey, Option.toList]
         exact List.perm_append_singleton _ _)

mutual
/-- The heuristic emission walk pushes a sublist of the per-node candidate
keys. -/
theorem visit_sub_cand (R : Registries) :
    ∀ (pv : Option Node) (n : Node), Heuristic.visit R pv n <+ candKeys pv n
  | pv, .ident i => by simp [Heuristic.visit, candKeys]
  | pv, .strLit s => by simp [Heuristic.visit, candKeys]
  | pv, .numLit v => by simp [Heuristic.visit, candKeys]
  | pv, .propAccess o m => by
      simpa [Heuristic.visit, candKeys] using visit_sub_cand R none o
  | pv, .call c as => by
      simp only [Heuristic.visit, candKeys]
      exact ((ite_sublist _).append (visit_sub_cand R none c)).append
        (visitL_sub_cand R as)
  | pv, .newExpr c as => by
      simp only [Heuristic.visit, candKeys]
      exact (visit_sub_cand R none c).append (visitL_sub_cand R as)
  | pv, .awaitExpr e => by
      simpa [Heuristic.visit, candKeys] using visit_sub_cand R none e
  | pv, .assign l r => by
      simp only [Heuristic.visit, candKeys]
      exact (visit_sub_cand R none l).append (visit_sub_cand R none r)
  | pv, .returnStmt (some e) => by
      simpa [Heuristic.visit, candKeys] using visit_sub_cand R none e
  | pv, .returnStmt none => by simp [Heuristic.visit, candKeys]
  | pv, .exprStmt e => by
      simpa [Heuristic.visit, candKeys] using visit_sub_cand R none e
  | pv, .block ss => by
      simpa [Heuristic.visit, candKeys] using visitL_sub_cand R ss
  | pv, .varDecl nm (some i) => by
      simp only [Heuristic.visit, candKeys]
      exact (visit_sub_cand R (some nm) nm).append (visit_sub_cand R (some nm) i)
  | pv, .varDecl nm none => by
      simp only [Heuristic.visit, candKeys]
      simpa using visit_sub_cand R (some nm) nm
  | pv, .bindingPattern k es => by
      simpa [Heuristic.visit, candKeys] using visitL_sub_cand R es
  | pv, .funcDecl (some nm) a ty (some b) => by
      simp only [Heuristic.visit, candKeys]
      exact (ite_sublist [nm.key]).append (visit_sub_cand R none b)
  | pv, .funcDecl (some nm) a ty none => by
      simp only [Heuristic.visit, candKeys]
      simpa using ite_sublist [nm.key]
  | pv, .funcDecl none a ty (some b) => by
      simp only [Heuristic.visit, candKeys]
      exact (ite_sublist []).append (visit_sub_cand R none b)
  | pv, .funcDecl none a ty none => by
      simp [Heuristic.visit, candKeys]
  | pv, .funcExpr a ty b => by
      cases pv with
      | none =>
          simp only [Heuristic.visit, candKeys, ctxKeys]
          exact (ite_sublist []).append (visit_sub_cand R none b)
      | some nm =>
          simp only [Heuristic.visit, candKeys, ctxKeys]
          exact (ite_sublist _).append (visit_sub_cand R none b)
  | pv, .arrowFunc a ty b => by
      cases pv with
      | none =>
          simp only [Heuristic.visit, candKeys, ctxKeys]
          exact (ite_sublist []).append (visit_sub_cand R none b)
      | some nm =>
          simp only [Heuristic.visit, candKeys, ctxKeys]
          exact (ite_sublist _).append (visit_sub_cand R none b)
  | pv, .methodDecl nm a ty (some b) => by
      simp only [Heuristic.visit, candKeys]
      exact (ite_sublist [nm.key]).append (visit_sub_cand R none b)
  | pv, .methodDecl nm a ty none => by
      simp only [Heuristic.visit, candKeys]
      simpa using ite_sublist [nm.key]
  | pv, .classDecl nm? ms => by
      simpa [Heuristic.visit, candKeys] using visitL_sub_cand R ms
  | pv, .objectLit ps => by
      simpa [Heuristic.visit, candKeys] using visitL_sub_cand R ps
  | pv, .shorthandProp i => by simp [Heuristic.visit, candKeys]
  | pv, .propAssign nm i => by
      simpa [Heuristic.visit, candKeys] using visit_sub_cand R none i

theorem visitL_sub_cand (R : Registries) :
    ∀ (ns : List Node), Heuristic.visitL R none ns <+ candKeysL ns
  | [] => by simp [Heuristic.visitL, candKeysL]
  | n :: ns => by
      simp only [Heuristic.visitL, candKeysL]
      exact (visit_sub_cand R none n).append (visitL_sub_cand R ns)
end

mutual
/-- The TypeScript-backed re-walk of the hybrid provider also pushes a
sublist of the same per-node candidate keys. -/
theorem vts_sub_cand (C : Tsc.Checker) (claimed : List Nat) :
    ∀ (pv : Option Node) (n : Node),
      Hybrid.visitTypeScript C claimed pv n <+ candKeys pv n
  | pv, .ident i => by simp [Hybrid.visitTypeScript, candKeys]
  | pv, .strLit s => by simp [Hybrid.visitTypeScript, candKeys]
  | pv, .numLit v => by simp [Hybrid.visitTypeScript, candKeys]
  | pv, .propAccess o m => by
      simpa [Hybrid.visitTypeScript, candKeys] using vts_sub_cand C claimed none o
  | pv, .call c as => by
      simp only [Hybrid.visitTypeScript, candKeys]
      refine List.Sublist.append
        (List.Sublist.append ?_ (vts_sub_cand C claimed none c))
        (vtsL_sub_cand C claimed as)
      cases c <;>
        first
          | exact ite_sublist _
          | exact List.nil_sublist _
  | pv, .newExpr c as => by
      simp only [Hybrid.visitTypeScript, candKeys]
      exact (vts_sub_cand C claimed none c).append (vtsL_sub_cand C claimed as)
  | pv, .awaitExpr e => by
      simpa [Hybrid.visitTypeScript, candKeys] using vts_sub_cand C claimed none e
  | pv, .assign l r => by
      simp only [Hybrid.visitTypeScript, candKeys]
      exact (vts_sub_cand C claimed none l).append (vts_sub_cand C claimed none r)
  | pv, .returnStmt (some e) => by
      simpa [Hybrid.visitTypeScript, candKeys] using vts_sub_cand C claimed none e
  | pv, .returnStmt none => by simp [Hybrid.visitTypeScript, candKeys]
  | pv, .exprStmt e => by
      simpa [Hybrid.visitTypeScript, candKeys] using vts_sub_cand C claimed none e
  | pv, .block ss => by
      simpa [Hybrid.visitTypeScript, candKeys] using vtsL_sub_cand C claimed ss
  | pv, .varDecl nm (some i) => by
      simp only [Hybrid.visitTypeScript, candKeys]
      exact (vts_sub_cand C claimed (some nm) nm).append
        (vts_sub_cand C claimed (some nm) i)
  | pv, .varDecl nm none => by
      simp only [Hybrid.visitTypeScript, candKeys]
      simpa using vts_sub_cand C claimed (some nm) nm
  | pv, .bindingPattern k es => by
      simpa [Hybrid.visitTypeScript, candKeys] using vtsL_sub_cand C claimed es
  | pv, .funcDecl (some nm) a ty (some b) => by
      simp only [Hybrid.visitTypeScript, candKeys]
      exact (ite_sublist [nm.key]).append (vts_sub_cand C claimed none b)
  | pv, .funcDecl (some nm) a ty none => by
      simp only [Hybrid.visitTypeScript, candKeys]
      exact (ite_sublist [nm.key]).append (List.nil_sublist [])
  | pv, .funcDecl none a ty (some b) => by
      simp only [Hybrid.visitTypeScript, candKeys]
      exact vts_sub_cand C claimed none b
  | pv, .funcDecl none a ty none => by
      simp [Hybrid.visitTypeScript, candKeys]
  | pv, .funcExpr a ty b => by
      cases pv with
      | none =>
          simp only [Hybrid.visitTypeScript, candKeys, ctxKeys]
          exact (List.nil_sublist _).append (vts_sub_cand C claimed none b)
      | some nm =>
          cases hgk : getNodeKey nm <;>
            simp only [Hybrid.visitTypeScript, candKeys, ctxKeys, hgk, Option.toList]
          · exact (List.nil_sublist _).append (vts_sub_cand C claimed none b)
          · exact (ite_sublist _).append (vts_sub_cand C claimed none b)
  | pv, .arrowFunc a ty b => by
      cases pv with
      | none =>
          simp only [Hybrid.visitTypeScript, candKeys, ctxKeys]
          exact (List.nil_sublist _).append (vts_sub_cand C claimed none b)
      | some nm =>
          cases hgk : getNodeKey nm <;>
            simp only [Hybrid.visitTypeScript, candKeys, ctxKeys, hgk, Option.toList]
          · exact (List.nil_sublist _).append (vts_sub_cand C claimed none b)
          · exact (ite_sublist _).append (vts_sub_cand C claimed none b)
  | pv, .methodDecl nm a ty (some b) => by
      simp only [Hybrid.visitTypeScript, candKeys]
      exact (ite_sublist [nm.key]).append (vts_sub_cand C claimed none b)
  | pv, .methodDecl nm a ty none => by
      simp only [Hybrid.visitTypeScript, candKeys]
      exact (ite_sublist [nm.key]).append (List.nil_sublist [])
  | pv, .classDecl nm? ms => by
      simpa [Hybrid.visitTypeScript, candKeys] using vtsL_sub_cand C claimed ms
  | pv, .objectLit ps => by
      simpa [Hybrid.visitTypeScript, candKeys] using vtsL_sub_cand C claimed ps
  | pv, .shorthandProp i => by simp [Hybrid.visitTypeScript, candKeys]
  | pv, .propAssign nm i => by
      simpa [Hybrid.visitTypeScript, candKeys] using vts_sub_cand C claimed none i

theorem vtsL_sub_cand (C : Tsc.Checker) (claimed : List Nat) :
    ∀ (ns : List Node), Hybrid.visitTypeScriptL C claimed none ns <+ candKeysL ns
  | [] => by simp [Hybrid.visitTypeScriptL, candKeysL]
  | n :: ns => by
      simp only [Hybrid.visitTypeScriptL, candKeysL]
      exact (vts_sub_cand C claimed none n).append (vtsL_sub_cand C claimed ns)
end

mutual
/-- The per-node candidate keys are a subpermutation of the unit's span
keys.  Three simultaneous bounds: (1) general, with the parent-context key
in front; (2) a node appearing as its own variable-declaration name never
consumes its context key (`identKeysRest`); (3) a callee's call-candidate
key together with its own candidates fits in its `identKeys`. -/
theorem cand_subperm : ∀ (pv : Option Node) (n : Node),
    (candKeys pv n <+~ ctxKeys pv ++ identKeys n)
      ∧ (candKeys (some n) n <+~ identKeysRest n)
      ∧ (Heuristic.callCandidateKey n ++ candKeys none n <+~ identKeys n)
  | pv, .ident i => by
    refine ⟨List.nil_subperm, List.nil_subperm, ?_⟩
    simpa [candKeys, identKeys, Heuristic.callCandidateKey] using
      List.Subperm.refl [i.key]
  | pv, .strLit s =>
    ⟨List.nil_subperm, List.nil_subperm, List.nil_subperm⟩
  | pv, .numLit v =>
    ⟨List.nil_subperm, List.nil_subperm, List.nil_subperm⟩
  | pv, .shorthandProp i =>
    ⟨List.nil_subperm, List.nil_subperm, List.nil_subperm⟩
  | pv, .returnStmt none =>
    ⟨List.nil_subperm, List.nil_subperm, List.nil_subperm⟩
  | pv, .propAccess o m => by
    have ho : candKeys none o <+~ identKeys o := by
      simpa [ctxKeys] using (cand_subperm none o).1
    exact ⟨subperm_pad _ (subperm_pad [m.key] ho), subperm_pad [m.key] ho,
      subperm_cons_both m.key ho⟩
  | pv, .call c as => by
    have core : Heuristic.callCandidateKey c ++ candKeys none c ++ candKeysL as
        <+~ identKeys c ++ identKeysL as :=
      subperm_append_both (cand_subperm none c).2.2 (candL_subperm as)
    exact ⟨subperm_pad _ core, core, core⟩
  | pv, .newExpr c as => by
    have hc : candKeys none c <+~ identKeys c := by
      simpa [ctxKeys] using (cand_subperm none c).1
    have core := subperm_append_both hc (candL_subperm as)
    exact ⟨subperm_pad _ core, core, core⟩
  | pv, .awaitExpr e => by
    have he : candKeys none e <+~ identKeys e := by
      simpa [ctxKeys] using (cand_subperm none e).1
    exact ⟨subperm_pad _ he, he, he⟩
  | pv, .exprStmt e => by
    have he : candKeys none e <+~ identKeys e := by
      simpa [ctxKeys] using (cand_subperm none e).1
    exact ⟨subperm_pad _ he, he, he⟩
  | pv, .returnStmt (some e) => by
    have he : candKeys none e <+~ identKeys e := by
      simpa [ctxKeys] using (cand_subperm none e).1
    exact ⟨subperm_pad _ he, he, he⟩
  | pv, .assign l r => by
    have hl : candKeys none l <+~ identKeys l := by
      simpa [ctxKeys] using (cand_subperm none l).1
    have hr : candKeys none r <+~ identKeys r := by
      simpa [ctxKeys] using (cand_subperm none r).1
    have core := subperm_append_both hl hr
    exact ⟨subperm_pad _ core, core, core⟩
  | pv, .block ss => by
    have core := candL_subperm ss
    exact ⟨subperm_pad _ core, core, core⟩
  | pv, .objectLit ps => by
    have core := candL_subperm ps
    exact ⟨subperm_pad _ core, core, core⟩
  | pv, .classDecl nm? ms => by
    have hms := candL_subperm ms
    cases nm? with
    | none => exact ⟨subperm_pad _ hms, hms, hms⟩
    | some nm =>
        exact ⟨subperm_pad _ (subperm_pad [nm.key] hms), subperm_pad [nm.key] hms,
          subperm_pad [nm.key] hms⟩
  | pv, .bindingPattern k es => by
    have hes := candL_subperm es
    exact ⟨subperm_pad _ (subperm_pad [k] hes), hes, subperm_pad [k] hes⟩
  | pv, .propAssign nm i => by
    have hi : candKeys none i <+~ identKeys i := by
      simpa [ctxKeys] using (cand_subperm none i).1
    exact ⟨subperm_pad _ (subperm_pad [nm.key] hi), subperm_pad [nm.key] hi,
      subperm_pad [nm.key] hi⟩
  | pv, .funcDecl (some nm) a ty (some b) => by
    have hb : candKeys none b <+~ identKeys b := by
      simpa [ctxKeys] using (cand_subperm none b).1
    have core := subperm_cons_both nm.key hb
    exact ⟨subperm_pad _ core, core, core⟩
  | pv, .funcDecl (some nm) a ty none =>
    ⟨subperm_pad _ (List.Subperm.refl [nm.key]), List.Subperm.refl _,
      List.Subperm.refl _⟩
  | pv, .funcDecl none a ty (some b) => by
    have hb : candKeys none b <+~ identKeys b := by
      simpa [ctxKeys] using (cand_subperm none b).1
    exact ⟨subperm_pad _ hb, hb, hb⟩
  | pv, .funcDecl none a ty none =>
    ⟨List.nil_subperm, List.nil_subperm, List.nil_subperm⟩
  | pv, .funcExpr a ty b => by
    have hb : candKeys none b <+~ identKeys b := by
      simpa [ctxKeys] using (cand_subperm none b).1
    exact ⟨subperm_append_both (List.Subperm.refl (ctxKeys pv)) hb, hb, hb⟩
  | pv, .arrowFunc a ty b => by
    have hb : candKeys none b <+~ identKeys b := by
      simpa [ctxKeys] using (cand_subperm none b).1
    exact ⟨subperm_append_both (List.Subperm.refl (ctxKeys pv)) hb, hb, hb⟩
  | pv, .methodDecl nm a ty (some b) => by
    have hb : candKeys none b <+~ identKeys b := by
      simpa [ctxKeys] using (cand_subperm none b).1
    have core := subperm_cons_both nm.key hb
    exact ⟨subperm_pad _ core, core, core⟩
  | pv, .methodDecl nm a ty none =>
    ⟨subperm_pad _ (List.Subperm.refl [nm.key]), List.Subperm.refl _,
      List.Subperm.refl _⟩
  | pv, .varDecl nm (some i) => by
    have h2 := (cand_subperm (some nm) nm).2.1
    have h1 := (cand_subperm (some nm) i).1
    have hperm : identKeysRest nm ++ (ctxKeys (some nm) ++ identKeys i)
        ~ identKeys nm ++ identKeys i := by
      rw [← List.append_assoc]
      exact (identKeysRest_perm nm).append_right _
    have core : candKeys (some nm) nm ++ candKeys (some nm) i
        <+~ identKeys nm ++ identKeys i :=
      subperm_of_perm_right (subperm_append_both h2 h1) hperm
    exact ⟨subperm_pad _ core, core, core⟩
  | pv, .varDecl nm none => by
    have h2 := (cand_subperm (some nm) nm).2.1
    have hr : identKeysRest nm <+~ identKeys nm :=
      subperm_of_perm_right (List.sublist_append_left _ _).subperm
        (identKeysRest_perm nm)
    have core := h2.trans hr
    exact ⟨subperm_pad _ core, core, core⟩

theorem candL_subperm : ∀ (ns : List Node), candKeysL ns <+~ identKeysL ns
  | [] => List.nil_subperm
  | n :: ns => by
    have hn : candKeys none n <+~ identKeys n := by
      simpa [ctxKeys] using (cand_subperm none n).1
    exact subperm_append_both hn (candL_subperm ns)
end

mutual
/-- Every key the TypeScript-backed re-walk pushes passed its
`!this.heuristicTokens.has(key)` guard: it is not in the claimed set. -/
theorem vts_guard (C : Tsc.Checker) (claimed : List Nat) :
    ∀ (pv : Option Node) (n : Node) (k : Nat),
      k ∈ Hybrid.visitTypeScript C claimed pv n → claimed.contains k = false
  | pv, .ident i, k => by
      intro hk; simp [Hybrid.visitTypeScript] at hk
  | pv, .strLit s, k => by
      intro hk; simp [Hybrid.visitTypeScript] at hk
  | pv, .numLit v, k => by
      intro hk; simp [Hybrid.visitTypeScript] at hk
  | pv, .shorthandProp i, k => by
      intro hk; simp [Hybrid.visitTypeScript] at hk
  | pv, .returnStmt none, k => by
      intro hk; simp [Hybrid.visitTypeScript] at hk
  | pv, .propAccess o m, k => by
      intro hk
      exact vts_guard C claimed none o k
        (by simpa [Hybrid.visitTypeScript] using hk)
  | pv, .awaitExpr e, k => by
      intro hk
      exact vts_guard C claimed none e k
        (by simpa [Hybrid.visitTypeScript] using hk)
  | pv, .exprStmt e, k => by
      intro hk
      exact vts_guard C claimed none e k
        (by simpa [Hybrid.visitTypeScript] using hk)
  | pv, .returnStmt (some e), k => by
      intro hk
      exact vts_guard C claimed none e k
        (by simpa [Hybrid.visitTypeScript] using hk)
  | pv, .propAssign nm i, k => by
      intro hk
      exact vts_guard C claimed none i k
        (by simpa [Hybrid.visitTypeScript] using hk)
  | pv, .block ss, k => by
      intro hk
      exact vtsL_guard C claimed ss k
        (by simpa [Hybrid.visitTypeScript] using hk)
  | pv, .bindingPattern kk es, k => by
      intro hk
      exact vtsL_guard C claimed es k
        (by simpa [Hybrid.visitTypeScript] using hk)
  | pv, .classDecl nm? ms, k => by
      intro hk
      exact vtsL_guard C claimed ms k
        (by simpa [Hybrid.visitTypeScript] using hk)
  | pv, .objectLit ps, k => by
      intro hk
      exact vtsL_guard C claimed ps k
        (by simpa [Hybrid.visitTypeScript] using hk)
  | pv, .newExpr c as, k => by
      intro hk
      simp only [Hybrid.visitTypeScript, List.mem_append] at hk
      rcases hk with hk | hk
      · exact vts_guard C claimed none c k hk
      · exact vtsL_guard C claimed as k hk
  | pv, .assign l r, k => by
      intro hk
      simp only [Hybrid.visitTypeScript, List.mem_append] at hk
      rcases hk with hk | hk
      · exact vts_guard C claimed none l k hk
      · exact vts_guard C claimed none r k hk
  | pv, .varDecl nm i?, k => by
      intro hk
      cases i? with
      | none =>
          simp only [Hybrid.visitTypeScript, List.mem_append] at hk
          rcases hk with hk | hk
          · exact vts_guard C claimed (some nm) nm k hk
          · simp at hk
      | some i =>
          simp only [Hybrid.visitTypeScript, List.mem_append] at hk
          rcases hk with hk | hk
          · exact vts_guard C claimed (some nm) nm k hk
          · exact vts_guard C claimed (some nm) i k hk
  | pv, .call c as, k => by
      intro hk
      simp only [Hybrid.visitTypeScript, List.mem_append] at hk
      rcases hk with (hk | hk) | hk
      · cases c <;>
          first
            | exact mem_guard_push hk
            | simp at hk
      · exact vts_guard C claimed none c k hk
      · exact vtsL_guard C claimed as k hk
  | pv, .funcDecl nm? a ty b?, k => by
      intro hk
      cases nm? with
      | none =>
          cases b? with
          | none => simp [Hybrid.visitTypeScript] at hk
          | some b =>
              exact vts_guard C claimed none b k
                (by simpa [Hybrid.visitTypeScript] using hk)
      | some nm =>
          cases b? with
          | none =>
              simp only [Hybrid.visitTypeScript, List.append_nil] at hk
              exact mem_guard_push hk
          | some b =>
              simp only [Hybrid.visitTypeScript, List.mem_append] at hk
              rcases hk with hk | hk
              · exact mem_guard_push hk
              · exact vts_guard C claimed none b k hk
  | pv, .methodDecl nm a ty b?, k => by
      intro hk
      cases b? with
      | none =>
          simp only [Hybrid.visitTypeScript, List.append_nil] at hk
          exact mem_guard_push hk
      | some b =>
          simp only [Hybrid.visitTypeScript, List.mem_append] at hk
          rcases hk with hk | hk
          · exact mem_guard_push hk
          · exact vts_guard C claimed none b k hk
  | pv, .funcExpr a ty b, k => by
      intro hk
      simp only [Hybrid.visitTypeScript, List.mem_append] at hk
      rcases hk with hk | hk
      · cases pv with
        | none => simp at hk
        | some nm =>
            cases nm <;>
              first
                | exact mem_guard_push hk
                | simp [getNodeKey] at hk
      · exact vts_guard C claimed none b k hk
  | pv, .arrowFunc a ty b, k => by
      intro hk
      simp only [Hybrid.visitTypeScript, List.mem_append] at hk
      rcases hk with hk | hk
      · cases pv with
        | none => simp at hk
        | some nm =>
            cases nm <;>
              first
                | exact mem_guard_push hk
                | simp [getNodeKey] at hk
      · exact vts_guard C claimed none b k hk

theorem vtsL_guard (C : Tsc.Checker) (claimed : List Nat) :
    ∀ (ns : List Node) (k : Nat),
      k ∈ Hybrid.visitTypeScriptL C claimed none ns → claimed.contains k = false
  | [], k => by
      intro hk; simp [Hybrid.visitTypeScriptL] at hk
  | n :: ns, k => by
      intro hk
      simp only [Hybrid.visitTypeScriptL, List.mem_append] at hk
      rcases hk with hk | hk
      · exact vts_guard C claimed none n k hk
      · exact vtsL_guard C claimed ns k hk
end

/-! ## Claim C4 -/

/-- **C4.** In hybrid mode, under the premise that every span key of the
unit is distinct (as real `start-end` source spans of distinct nodes are),
every identifier span appears at most once in the output; and the
TypeScript-backed phase only appends spans that are absent from the
heuristic phase's claimed set — it never removes or changes a span the
heuristic phase reported, which is exactly the unchanged prefix of the
output. -/
theorem C4_hybrid_span_uniqueness (t : Node) (C? : Option Tsc.Checker)
    (hnd : (identKeys t).Nodup) :
    (Hybrid.provide C? t).Nodup
      ∧ ∃ rest, Hybrid.provide C? t = Heuristic.provide t ++ rest
          ∧ ∀ k ∈ rest, k ∉ Heuristic.provide t := by
  have hcand : candKeys none t <+~ identKeys t := by
    simpa [ctxKeys] using (cand_subperm none t).1
  have hks : Heuristic.provide t <+~ identKeys t :=
    ((visit_sub_cand (Heuristic.buildRegistries t) none t).subperm).trans hcand
  have hksnd : (Heuristic.provide t).Nodup := nodup_of_subperm hks hnd
  cases C? with
  | none =>
      refine ⟨hksnd, [], ?_, by simp⟩
      show Heuristic.provide t = Heuristic.provide t ++ []
      exact (List.append_nil _).symm
  | some C =>
      have hvts : Hybrid.visitTypeScript C (Heuristic.provide t) none t
          <+~ identKeys t :=
        ((vts_sub_cand C (Heuristic.provide t) none t).subperm).trans hcand
      have hvtsnd := nodup_of_subperm hvts hnd
      have hdisj : ∀ k ∈ Hybrid.visitTypeScript C (Heuristic.provide t) none t,
          k ∉ Heuristic.provide t := fun k hk =>
        not_mem_of_contains_false (vts_guard C (Heuristic.provide t) none t k hk)
      refine ⟨?_, Hybrid.visitTypeScript C (Heuristic.provide t) none t, rfl, hdisj⟩
      show (Heuristic.provide t
        ++ Hybrid.visitTypeScript C (Heuristic.provide t) none t).Nodup
      exact List.nodup_append.mpr ⟨hksnd, hvtsnd, fun a ha hb => hdisj a hb ha⟩

/-- The unit of the C4 witness: `async function f(){}; f()` with the two
identifier spans 0 and 1. -/
def tC4 : Node :=
  .block [.funcDecl (some ⟨0, "f"⟩) true none (some (.block [])),
          .exprStmt (.call (.ident ⟨1, "f"⟩) [])]

/-- Witness for C4: the span keys of the concrete unit are distinct, and
the conclusion holds for it in heuristic-fallback hybrid mode. -/
theorem C4_witness :
    (identKeys tC4).Nodup
      ∧ ((Hybrid.provide none tC4).Nodup
          ∧ ∃ rest, Hybrid.provide none tC4 = Heuristic.provide tC4 ++ rest
              ∧ ∀ k ∈ rest, k ∉ Heuristic.provide tC4) :=
  ⟨by decide, C4_hybrid_span_uniqueness tC4 none (by decide)⟩

/-! ## Claim C1 -/

/-- **C1.** For every input unit, the hybrid-mode span set is a superset of
the heuristic-only span set on the same input, and when construction of the
semantic type-checking context fails (`C? = none`) the hybrid output is
exactly the heuristic output: phase 1 of the hybrid provider is the
heuristic provider (registries, classification, emission), and the
`visitTypeScript` results are appended only when `createTypeScriptProgram`
succeeds. -/
theorem C1_hybrid_superset_and_exact_fallback (t : Node) (C? : Option Tsc.Checker) :
    (∀ k, k ∈ Heuristic.provide t → k ∈ Hybrid.provide C? t)
      ∧ Hybrid.provide none t = Heuristic.provide t := by
  refine ⟨fun k hk => ?_, rfl⟩
  cases C? with
  | none => exact hk
  | some C =>
      simp only [Hybrid.provide, Heuristic.provide] at hk ⊢
      exact List.mem_append_left _ hk

/-- Witness for C1: a concrete unit (`async function f(){}` bound at span
key 1) and a concrete checker; the heuristic span 1 is in the hybrid
output. -/
theorem C1_witness :
    1 ∈ Hybrid.provide
        (some ⟨fun _ => .ok none, fun _ => .ok none, fun _ => .ok (.atom none none)⟩)
        (.funcDecl (some ⟨1, "f"⟩) true none (some (.block []))) :=
  (C1_hybrid_superset_and_exact_fallback
      (.funcDecl (some ⟨1, "f"⟩) true none (some (.block []))) _).1 1 (by decide)

/-! ## Claim C2 -/

/-- **C2 (counterexample).** The claim says a `return` inside any nested
function, arrow, *or method* body never makes the enclosing function's
heuristic classification positive.  But the scan's barrier list is only
`isFunctionDeclaration || isArrowFunction || isFunctionExpression`, so for
`function f() { class C { m() { return fetch() } } }` the `return` inside
the nested method body `m` is seen and `f` is classified positive. -/
theorem C2_counterexample :
    Heuristic.isFunctionReturningPromise Registries.empty
      (.funcDecl (some ⟨0, "f"⟩) false none
        (some (.block [.classDecl (some ⟨1, "C"⟩)
          [.methodDecl ⟨2, "m"⟩ false none
            (some (.block [.returnStmt (some (.call (.ident ⟨3, "fetch"⟩) []))]))]]))) =
      true := by
  decide

/-- **C2 (amended).** The body-scan stops at nested function declarations,
arrow functions, and function expressions — a `return` inside those never
contributes — and a nested function's own classification is computed from
its node alone, so outer returns cannot affect it; but the scan descends
through class declarations and object literals into nested *method*
bodies, whose returns are therefore seen by the enclosing function. -/
theorem C2_amended_scan_barrier (R : Registries) (a : Bool) (ty : Option String)
    (b : Node) (nm : Ident) (nm? : Option Ident) (b? : Option Node)
    (ms ps : List Node) :
    Heuristic.scanReturns R (.arrowFunc a ty b) = false
      ∧ Heuristic.scanReturns R (.funcExpr a ty b) = false
      ∧ Heuristic.scanReturns R (.funcDecl nm? a ty b?) = false
      ∧ Heuristic.scanReturns R (.methodDecl nm a ty (some b)) = Heuristic.scanReturns R b
      ∧ Heuristic.scanReturns R (.classDecl nm? ms) = Heuristic.scanReturnsL R ms
      ∧ Heuristic.scanReturns R (.objectLit ps) = Heuristic.scanReturnsL R ps := by
  refine ⟨?_, ?_, ?_, ?_, ?_, ?_⟩ <;> simp [Heuristic.scanReturns]

/-! ## Claim C3 -/

/-- **C3 (counterexample).** In
`function g(){ return h() } function h(){ return Promise.resolve(1) } g()`
(spans: `g` def 1, `h` call in body 2, `h` def 3, `resolve` 5, `g` call
site 6), the collector classifies `g` against the registry *before* `h`
has been registered, so `g` is never registered and the call site `g()`
is not reported: the forward reference through the registry does not
resolve.  (The definition span of `g` is still emitted, because the
emission pass re-classifies with the full registry.) -/
theorem C3_counterexample :
    let g : Node := .funcDecl (some ⟨1, "g"⟩) false none
      (some (.block [.returnStmt (some (.call (.ident ⟨2, "h"⟩) []))]))
    let h : Node := .funcDecl (some ⟨3, "h"⟩) false none
      (some (.block [.returnStmt (some (.call
        (.propAccess (.ident ⟨4, "Promise"⟩) ⟨5, "resolve"⟩) [.numLit 1]))]))
    let t : Node := .block [g, h, .exprStmt (.call (.ident ⟨6, "g"⟩) [])]
    (Heuristic.buildRegistries t).fns = ["h"]
      ∧ Heuristic.provide t = [1, 2, 3, 5]
      ∧ ¬ 6 ∈ Heuristic.provide t := by
  decide

/-- **C3 (amended).** If a name ends up in the function registry the pass
built, then every bare-identifier call site of that name in the unit is
reported, regardless of whether call or definition comes first.  But
registration itself is order-sensitive: the collector classifies each
function against the registry built *so far*, so a function whose only
qualifying return calls a promise-returning function defined later in the
unit is not registered (swapping the two definitions registers it). -/
theorem C3_amended_registered_forward_references :
    (∀ (t : Node) (name : String) (k : Nat),
        (Heuristic.buildRegistries t).fns.contains name = true →
        k ∈ bareCallKeys name t →
        k ∈ Heuristic.provide t)
      ∧ (let g : Node := .funcDecl (some ⟨1, "g"⟩) false none
           (some (.block [.returnStmt (some (.call (.ident ⟨2, "h"⟩) []))]))
         let h : Node := .funcDecl (some ⟨3, "h"⟩) false none
           (some (.block [.returnStmt (some (.call
             (.propAccess (.ident ⟨4, "Promise"⟩) ⟨5, "resolve"⟩) [.numLit 1]))]))
         (Heuristic.buildRegistries (.block [g, h])).fns = ["h"]
           ∧ (Heuristic.buildRegistries (.block [h, g])).fns = ["g", "h"]) := by
  constructor
  · intro t name k hf hk
    exact (bareCallKeys_sublist_visit (Heuristic.buildRegistries t) name hf none t).subset hk
  · decide

/-- Witness for C3: `async function g(){}` (def span 1) followed by a call
`g()` (span 5); `g` is registered, 5 is a bare call site of `g`, and 5 is
reported. -/
theorem C3_witness :
    5 ∈ Heuristic.provide (.block
      [.funcDecl (some ⟨1, "g"⟩) true none (some (.block [])),
       .exprStmt (.call (.ident ⟨5, "g"⟩) [])]) :=
  C3_amended_registered_forward_references.1 _ "g" 5 (by decide) (by decide)

end PromiseColorizer


